import Mathlib

/-!
Shallow embedding of the server-side simulation core of the `foam` repository:
the four durable-object state machines — Player (Node), Route (Link),
Intersection (Contested-Point) and Market — as pure Lean functions, with the
cross-entity calls and websocket errors reified as explicit event lists.

Sources embedded:
* `src/server/src/durable-objects/intersection.ts` (the second, full
  `IntersectionDO` class: `/invest`, `/collect-toll`, `alarm`),
* `src/unnamed/part_004` (`PlayerDO`: command handlers, REST callbacks, tick),
* `src/unnamed/part_003` (`MarketDO`: `placeOrder`, `cancelOrder` with price
  history, nit transfer and heat effects),
* `src/server/src/durable-objects/route.ts` (`RouteDO`).

JS numbers are modelled as `ℚ` (all amounts in the system are small integers,
for which binary floating point is exact; the one rounding site,
`Math.floor(amount * 0.9)` in the decay sweep, agrees with the exact rational
floor for every stake value below 2^49). JS objects used as string-keyed maps
(`investments`, `poiInvestments`) are modelled as association lists kept in
ECMAScript own-property order, which is the order `Object.entries`,
`Object.keys` and `Object.values` iterate: canonical array-index keys first
in ascending numeric order, then all other string keys in insertion order.
This matters because `handleAuth` accepts usernames matching
`/^[a-zA-Z0-9]{1,7}$/`, so a purely numeric username such as "42" is a
canonical array-index key and iterates before every earlier-inserted
non-numeric username — which flips the controller tie-break (see the C1 and
C5 counterexamples).
-/

/- Core rational arithmetic is sealed against definitional unfolding by
default; the concrete scenario computations below are settled by `decide`,
which needs these operations to reduce. -/
unseal Rat.mul Rat.inv Rat.sub Rat.add

set_option maxRecDepth 8000

namespace Foam

/-- Order side, `'bid' | 'ask'` in the TypeScript sources. -/
inductive Side where
  | bid
  | ask
deriving DecidableEq

/-- Decimal value of an all-digit string. -/
def digitVal (s : String) : Nat :=
  s.data.foldl (fun n c => n * 10 + (c.toNat - 48)) 0

/-- Canonical array-index string per ECMAScript: a nonempty digit string
with no leading zero (except `"0"` itself) whose value is below `2^32 - 1`.
`Object.entries` lists such own-property keys first, in ascending numeric
order, before all other string keys. -/
def isCanonicalIndex (s : String) : Bool :=
  !s.data.isEmpty && s.data.all Char.isDigit &&
    (s == "0" || s.data.head? != some '0') &&
    decide (digitVal s < 4294967295)

/-- Insert a fresh canonical-index key (of numeric value `n`) into a
property-ordered association list: it goes before the first non-index key
and before any index key with a larger value, reproducing where ECMAScript
slots a newly added array-index property in the iteration order. -/
def insertIndexKey (n : Nat) (key : String) (v : ℚ) :
    List (String × ℚ) → List (String × ℚ)
  | [] => [(key, v)]
  | (k, kv) :: rest =>
    if isCanonicalIndex k then
      if n < digitVal k then (key, v) :: (k, kv) :: rest
      else (k, kv) :: insertIndexKey n key v rest
    else (key, v) :: (k, kv) :: rest

/-- The JS pattern shared by `intersection.ts` lines 121–127 and `part_004`
lines 527–530:

```js
if (!m[key]) { m[key] = 0; }
m[key] += amount;
```

A key that is present keeps its position (even when its value is `0`, the
falsy re-initialisation writes the same `0` back). An absent key lands at
its ECMAScript own-property position: a canonical array-index key (a purely
numeric username like "42") is ordered among the leading index keys
ascending, every other key is appended at the tail of the iteration
order. -/
def bumpEntry (m : List (String × ℚ)) (key : String) (amount : ℚ) :
    List (String × ℚ) :=
  if key ∈ m.map Prod.fst then
    m.map fun pa => if pa.1 = key then (pa.1, pa.2 + amount) else pa
  else if isCanonicalIndex key then
    insertIndexKey (digitVal key) key amount m
  else
    m ++ [(key, amount)]

/-- `k1` may legitimately precede `k2` in ECMAScript own-property order:
index keys come before non-index keys, and index keys are ordered by
value. -/
def propBefore (k1 k2 : String) : Bool :=
  if isCanonicalIndex k1 then
    if isCanonicalIndex k2 then decide (digitVal k1 ≤ digitVal k2) else true
  else !isCanonicalIndex k2

/-- The stored association list is in ECMAScript own-property order, i.e.
in the order the code's `Object.entries`/`Object.values` loops walk it. -/
def PropOrder (inv : List (String × ℚ)) : Prop :=
  (inv.map Prod.fst).Pairwise fun a b => propBefore a b = true

instance (inv : List (String × ℚ)) : Decidable (PropOrder inv) := by
  unfold PropOrder
  infer_instance

/-- `findIndex` + `splice(idx, 1)` (market `cancelOrder`): locate the first
element satisfying `p`, return it together with the list with that one
occurrence removed; `none` when `findIndex` returns `-1`. -/
def eraseFirstMatch {α : Type} (p : α → Prop) [DecidablePred p] :
    List α → Option (α × List α)
  | [] => none
  | x :: rest =>
    if p x then some (x, rest)
    else
      match eraseFirstMatch p rest with
      | some (m, rest') => some (m, x :: rest')
      | none => none

/-! ## Contested-Point entity (`intersection.ts`, full `IntersectionDO`) -/

namespace Intersection

/-- `DECAY_INTERVAL = 5 * 60 * 1000` (intersection.ts line 75). -/
def DECAY_INTERVAL : Nat := 5 * 60 * 1000

/-- `TOLL_RATE = 0.10` (intersection.ts line 74). -/
def TOLL_RATE : ℚ := 1 / 10

/-- Stakes map `investments : {[player]: number}`, insertion-ordered. -/
abbrev Stakes := List (String × ℚ)

/-- `IntersectionState` (minus the immutable `createdAt`-style metadata the
claims never touch is kept as well, for fidelity). -/
structure IntersectionState where
  id : String
  coordinates : ℚ × ℚ
  routes : List String
  custody : List String
  investments : Stakes
  controller : Option String
  totalInvested : ℚ
  lastActivity : Nat
  createdAt : Nat
deriving DecidableEq

/-- A `poi-control-changed` POST into a player's durable object. -/
inductive Notify where
  | controlChanged (player : String) (poiId : String) (isCtrl : Bool)
deriving DecidableEq

/-- The controller scan (intersection.ts lines 133–141, and identically lines
278–285): `highestAmount = 0; newController = null;` then take each entry
whose value strictly exceeds the running maximum. -/
def computeControllerAux : Stakes → ℚ → Option String → Option String
  | [], _, best => best
  | (p, amt) :: rest, highest, best =>
    if highest < amt then computeControllerAux rest amt (some p)
    else computeControllerAux rest highest best

def computeController (inv : Stakes) : Option String :=
  computeControllerAux inv 0 none

/-- `Object.values(investments).reduce((a, b) => a + b, 0)`. -/
def sumStakes (inv : Stakes) : ℚ :=
  inv.foldl (fun a pa => a + pa.2) 0

/-- The notification block run when the controller identity changed
(intersection.ts lines 146–168 on the invest path, 291–310 on the decay
path): first tell the previous controller it lost control, then tell the new
controller it gained it; `null` ends are skipped. -/
def controlNotifications (poiId : String) (prev next : Option String) :
    List Notify :=
  if prev ≠ next then
    (prev.toList.map fun p => Notify.controlChanged p poiId false) ++
      (next.toList.map fun p => Notify.controlChanged p poiId true)
  else []

/-- `/invest` (intersection.ts lines 113–177): add to the player's stake,
recompute `totalInvested`, set `lastActivity = now`, rescan for the
controller, emit control-change notifications, extend `custody`. -/
def invest (s : IntersectionState) (player : String) (amount : ℚ)
    (now : Nat) : IntersectionState × List Notify :=
  let inv' := bumpEntry s.investments player amount
  let newController := computeController inv'
  let custody' := if player ∈ s.custody then s.custody else s.custody ++ [player]
  ({ s with
      investments := inv'
      totalInvested := sumStakes inv'
      lastActivity := now
      controller := newController
      custody := custody' },
    controlNotifications s.id s.controller newController)

/-- The decay loop body (intersection.ts lines 262–273): each stake becomes
`Math.floor(current * (1 - DECAY_RATE))` with `DECAY_RATE = 0.10`; entries
whose new value is not `> 0` are deleted, survivors keep their relative
order. -/
def decayStakes (inv : Stakes) : Stakes :=
  (inv.map fun pa => (pa.1, ((⌊pa.2 * (9 / 10)⌋ : ℤ) : ℚ))).filter
    fun pa => 0 < pa.2

/-- `alarm()` (intersection.ts lines 252–317): if at least `DECAY_INTERVAL`
has passed since `lastActivity`, decay all stakes, recompute
`totalInvested` and `controller` and emit the same control-change
notifications as the invest path; otherwise leave the state alone. The
unconditional re-arming of the alarm carries no state. -/
def alarm (s : IntersectionState) (now : Nat) :
    IntersectionState × List Notify :=
  if DECAY_INTERVAL ≤ now - s.lastActivity then
    let inv' := decayStakes s.investments
    let newController := computeController inv'
    ({ s with
        investments := inv'
        totalInvested := sumStakes inv'
        controller := newController },
      controlNotifications s.id s.controller newController)
  else (s, [])

/-- `k` is the stakes key with maximal value, ties resolved to the
earliest-inserted key: some entry `(k, v)` has every earlier entry strictly
below `v` and every later entry at most `v`. -/
def FirstArgmax (inv : Stakes) (k : String) : Prop :=
  ∃ v l1 l2, inv = l1 ++ (k, v) :: l2 ∧ (∀ pa ∈ l1, pa.2 < v) ∧
    ∀ pa ∈ l2, pa.2 ≤ v

/-- The reachable-state invariant of a contested point: all stored stakes are
strictly positive, keys are distinct, the list is stored in ECMAScript
own-property order (so list position is iteration position), and the stored
`controller` field is exactly what the controller scan computes from the
stakes. -/
def StakesInv (s : IntersectionState) : Prop :=
  (∀ pa ∈ s.investments, 0 < pa.2) ∧
    (s.investments.map Prod.fst).Nodup ∧
    PropOrder s.investments ∧
    s.controller = computeController s.investments

instance (s : IntersectionState) : Decidable (StakesInv s) := by
  unfold StakesInv; infer_instance

/-- One decay sweep at the earliest firing instant, used to iterate the
decay scenario. -/
def decaySweep (s : IntersectionState) : IntersectionState :=
  (alarm s (s.lastActivity + DECAY_INTERVAL)).1

end Intersection

/-! ## Player entity (`part_004`, `PlayerDO`) -/

namespace Player

/-- Heat constants (part_004 lines 4–12). -/
def HEAT_DECAY_PER_TICK : ℤ := 1
def HEAT_MAX : ℤ := 100
def HEAT_MIN : ℤ := 0
def HEAT_POI_INVEST : ℤ := 5
def HEAT_POI_WIN : ℤ := 10
def HEAT_TRADE : ℤ := 2
def HEAT_ROUTE_UPGRADE : ℤ := 3

/-- `POI_PRODUCTION_BONUS = 0.5` (part_004 line 15). -/
def POI_PRODUCTION_BONUS : ℚ := 1 / 2

/-- `PlayerState` (part_004): the region strings are irrelevant to every
claim and elided; everything the handlers read or write is present. -/
structure PlayerState where
  username : String
  nits : ℚ
  productionRate : ℚ
  coordinates : ℚ × ℚ
  heat : ℤ
  routes : List String
  poiInvestments : List (String × ℚ)
  createdAt : Nat
deriving DecidableEq

/-- A player durable object together with its separately stored
`controlledPois` list. -/
structure PlayerWorld where
  player : PlayerState
  controlledPois : List String
deriving DecidableEq

/-- Observable effects of a player command: an `error` message to the
session, or a cross-entity call (`/invest` into a POI, `/upgrade-capacity`
into a route, `/place-order` or `/cancel-order` into the market). -/
inductive PEff where
  | sendError (msg : String)
  | callPoiInvest (poiId : String) (player : String) (amount : ℚ)
  | callRouteUpgrade (routeId : String) (amount : ℚ)
  | callMarketPlace (orderId : String) (player : String) (side : Side)
      (price : ℚ) (amount : ℚ)
  | callMarketCancel (orderId : String) (player : String)
deriving DecidableEq

/-- The operations that mutate a player state: the authenticated client
commands, the REST callbacks other entities POST into the player, and the
production-tick alarm. -/
inductive PlayerOp where
  | investPoi (poiId : String) (amount : ℚ)
  | upgradeRoute (routeId : String)
  | placeOrder (side : Side) (price : ℚ) (amount : ℚ) (now : Nat)
  | cancelOrder (orderId : String)
  | updateNits (delta : ℚ)
  | addHeat (amount : ℤ)
  | poiControlChanged (poiId : String) (isCtrl : Bool)
  | tollReceived (amount : ℚ)
  | tick
deriving DecidableEq

/-- `handleAuth` success path (part_004 lines 235–248): a fresh player starts
with 100 nits, production rate 1, heat 0 and no routes or investments. -/
def initPlayer (username : String) (coords : ℚ × ℚ) (now : Nat) :
    PlayerState :=
  { username := username
    nits := 100
    productionRate := 1
    coordinates := coords
    heat := 0
    routes := []
    poiInvestments := []
    createdAt := now }

def initWorld (username : String) (coords : ℚ × ℚ) (now : Nat) :
    PlayerWorld :=
  { player := initPlayer username coords now, controlledPois := [] }

/-- `handleInvestPoi` (part_004 lines 507–552): reject non-positive amounts,
then insufficient balance; otherwise debit, record the investment, bump heat
by `HEAT_POI_INVEST` (capped at `HEAT_MAX`) and call the POI. -/
def handleInvestPoi (w : PlayerWorld) (poiId : String) (amount : ℚ) :
    PlayerWorld × List PEff :=
  if amount ≤ 0 then
    (w, [.sendError "Investment amount must be positive"])
  else if w.player.nits < amount then
    (w, [.sendError "Insufficient nits"])
  else
    let p := w.player
    ({ w with
        player := { p with
          nits := p.nits - amount
          poiInvestments := bumpEntry p.poiInvestments poiId amount
          heat := min HEAT_MAX (p.heat + HEAT_POI_INVEST) } },
      [.callPoiInvest poiId p.username amount])

/-- `upgradeCost = 50`, `capacityIncrease = 5` (part_004 lines 560–561). -/
def upgradeCost : ℚ := 50
def capacityIncrease : ℚ := 5

/-- `handleUpgradeRoute` (part_004 lines 554–590): reject insufficient nits,
then non-owned routes; otherwise debit 50, bump heat by
`HEAT_ROUTE_UPGRADE` and send `/upgrade-capacity` with amount 5. -/
def handleUpgradeRoute (w : PlayerWorld) (routeId : String) :
    PlayerWorld × List PEff :=
  if w.player.nits < upgradeCost then
    (w, [.sendError "Insufficient nits for upgrade"])
  else if routeId ∉ w.player.routes then
    (w, [.sendError "Not your route"])
  else
    let p := w.player
    ({ w with
        player := { p with
          nits := p.nits - upgradeCost
          heat := min HEAT_MAX (p.heat + HEAT_ROUTE_UPGRADE) } },
      [.callRouteUpgrade routeId capacityIncrease])

/-- `handlePlaceOrder` (part_004 lines 592–631): an ask with insufficient
nits errors out; an accepted ask escrows its amount; both sides then call
the market and bump heat by `HEAT_TRADE`. -/
def handlePlaceOrder (w : PlayerWorld) (side : Side) (price amount : ℚ)
    (now : Nat) : PlayerWorld × List PEff :=
  if side = .ask ∧ w.player.nits < amount then
    (w, [.sendError "Insufficient nits"])
  else
    let p := w.player
    let orderId := p.username ++ "-" ++ toString now
    ({ w with
        player := { p with
          nits := if side = .ask then p.nits - amount else p.nits
          heat := min HEAT_MAX (p.heat + HEAT_TRADE) } },
      [.callMarketPlace orderId p.username side price amount])

/-- `handleCancelOrder` (part_004 lines 633–647): forwards to the market,
touching no local state. -/
def handleCancelOrder (w : PlayerWorld) (orderId : String) :
    PlayerWorld × List PEff :=
  (w, [.callMarketCancel orderId w.player.username])

/-- `handleUpdateNits` (part_004 lines 649–662): credit/debit callback from
the market; a balance driven below zero is clamped to exactly zero. -/
def handleUpdateNits (w : PlayerWorld) (delta : ℚ) :
    PlayerWorld × List PEff :=
  let n := w.player.nits + delta
  ({ w with player := { w.player with nits := if n < 0 then 0 else n } }, [])

/-- `handleAddHeat` (part_004 lines 664–676): heat is clamped into
`[HEAT_MIN, HEAT_MAX]`. -/
def handleAddHeat (w : PlayerWorld) (amount : ℤ) :
    PlayerWorld × List PEff :=
  ({ w with
      player := { w.player with
        heat := min HEAT_MAX (max HEAT_MIN (w.player.heat + amount)) } }, [])

/-- `handlePoiControlChanged` (part_004 lines 678–697): winning control of a
new POI appends it and bumps heat by `HEAT_POI_WIN`; losing control filters
the POI out. -/
def handlePoiControlChanged (w : PlayerWorld) (poiId : String)
    (isCtrl : Bool) : PlayerWorld × List PEff :=
  if isCtrl ∧ poiId ∉ w.controlledPois then
    ({ player := { w.player with
          heat := min HEAT_MAX (w.player.heat + HEAT_POI_WIN) }
       controlledPois := w.controlledPois ++ [poiId] }, [])
  else if ¬ isCtrl then
    ({ w with controlledPois := w.controlledPois.filter fun i => i ≠ poiId },
      [])
  else (w, [])

/-- `handleTollReceived` (part_004 lines 699–712): plain credit, no clamp. -/
def handleTollReceived (w : PlayerWorld) (amount : ℚ) :
    PlayerWorld × List PEff :=
  ({ w with player := { w.player with nits := w.player.nits + amount } }, [])

/-- `alarm()` (part_004 lines 737–762): production credit
`productionRate + 0.5 * controlledPois.length`, heat decays by 1 floored at
`HEAT_MIN`. -/
def handleTick (w : PlayerWorld) : PlayerWorld × List PEff :=
  let production :=
    w.player.productionRate +
      (w.controlledPois.length : ℚ) * POI_PRODUCTION_BONUS
  ({ w with
      player := { w.player with
        nits := w.player.nits + production
        heat := max HEAT_MIN (w.player.heat - HEAT_DECAY_PER_TICK) } }, [])

def handleOp (w : PlayerWorld) : PlayerOp → PlayerWorld × List PEff
  | .investPoi poiId amount => handleInvestPoi w poiId amount
  | .upgradeRoute routeId => handleUpgradeRoute w routeId
  | .placeOrder side price amount now => handlePlaceOrder w side price amount now
  | .cancelOrder orderId => handleCancelOrder w orderId
  | .updateNits delta => handleUpdateNits w delta
  | .addHeat amount => handleAddHeat w amount
  | .poiControlChanged poiId isCtrl => handlePoiControlChanged w poiId isCtrl
  | .tollReceived amount => handleTollReceived w amount
  | .tick => handleTick w

def step (w : PlayerWorld) (op : PlayerOp) : PlayerWorld :=
  (handleOp w op).1

def run (w : PlayerWorld) (ops : List PlayerOp) : PlayerWorld :=
  ops.foldl step w

/-- The only caller of `/toll-received` is the contested point, which sends
`Math.floor(flowAmount * TOLL_RATE)` only after checking it is `> 0`
(intersection.ts lines 192–194), so toll credits are never negative. Every
other operation carries arbitrary client- or peer-supplied arguments. -/
def WfOp : PlayerOp → Prop
  | .tollReceived a => 0 ≤ a
  | _ => True

instance : DecidablePred WfOp := by
  intro op; unfold WfOp; cases op <;> infer_instance

/-- The node invariant of §8: balance never negative, heat within
`[0, 100]`; the production rate (1 at creation, never reassigned) stays
nonnegative. -/
def PInv (w : PlayerWorld) : Prop :=
  0 ≤ w.player.nits ∧ HEAT_MIN ≤ w.player.heat ∧ w.player.heat ≤ HEAT_MAX ∧
    0 ≤ w.player.productionRate

instance (w : PlayerWorld) : Decidable (PInv w) := by
  unfold PInv; infer_instance

/-- `VisiblePlayer` as built by `getVisibilityInfo`. -/
structure VisiblePlayer where
  username : String
  coordinates : ℚ × ℚ
  heat : ℤ
  nits : Option ℚ
deriving DecidableEq

/-- `getVisibilityInfo` (part_004 lines 714–735): username, coordinates and
heat are always exposed; nits only when `heat > 75`. -/
def getVisibilityInfo (p : PlayerState) : VisiblePlayer :=
  { username := p.username
    coordinates := p.coordinates
    heat := p.heat
    nits := if 75 < p.heat then some p.nits else none }

end Player

/-! ## Market entity (`part_003`, `MarketDO`)

The claims cite two revisions of the matching engine; `part_003` is the full
one (price history, `lastPrice`, nit transfer and heat effects) and is the
revision the spec describes, so it is the one embedded. -/

namespace Market

structure MarketOrder where
  id : String
  player : String
  side : Side
  price : ℚ
  amount : ℚ
  createdAt : Nat
deriving DecidableEq

/-- One entry of the `fills` array built by `placeOrder`. -/
structure Fill where
  orderId : String
  amount : ℚ
  price : ℚ
  counterparty : String
deriving DecidableEq

/-- Cross-entity calls issued by the market: `transferNits` POSTs
`/update-nits` with the given delta, `notifyFill` POSTs `/add-heat` with
amount 2 (part_003 lines 176–199). -/
inductive MEvent where
  | transferNits (player : String) (amount : ℚ)
  | addHeat (player : String) (amount : ℚ)
deriving DecidableEq

structure MarketState where
  bids : List MarketOrder
  asks : List MarketOrder
  priceHistory : List (Nat × ℚ)
  lastPrice : ℚ
deriving DecidableEq

/-- The bid matching loop (part_003 lines 60–84):
`while (remainingAmount > 0 && asks.length > 0)`, stop when
`bestAsk.price > order.price`, fill `min(remaining, bestAsk.amount)` at the
resting price, shift out a fully consumed best ask. In the partial-fill
branch the loop exits because the remainder just became zero, so the
updated best ask stays at the head. Returns
(fills, remaining, remaining asks). -/
def matchAsks (bidPrice : ℚ) : ℚ → List MarketOrder →
    List Fill × ℚ × List MarketOrder
  | remaining, [] => ([], remaining, [])
  | remaining, bestAsk :: rest =>
    if 0 < remaining then
      if bestAsk.price ≤ bidPrice then
        let fillAmount := min remaining bestAsk.amount
        let f : Fill := ⟨bestAsk.id, fillAmount, bestAsk.price, bestAsk.player⟩
        if bestAsk.amount - fillAmount = 0 then
          let r := matchAsks bidPrice (remaining - fillAmount) rest
          (f :: r.1, r.2.1, r.2.2)
        else
          ([f], remaining - fillAmount,
            { bestAsk with amount := bestAsk.amount - fillAmount } :: rest)
      else ([], remaining, bestAsk :: rest)
    else ([], remaining, bestAsk :: rest)

/-- The ask matching loop against resting bids (part_003 lines 99–123),
mirror of `matchAsks`: stop when `bestBid.price < order.price`. -/
def matchBids (askPrice : ℚ) : ℚ → List MarketOrder →
    List Fill × ℚ × List MarketOrder
  | remaining, [] => ([], remaining, [])
  | remaining, bestBid :: rest =>
    if 0 < remaining then
      if askPrice ≤ bestBid.price then
        let fillAmount := min remaining bestBid.amount
        let f : Fill := ⟨bestBid.id, fillAmount, bestBid.price, bestBid.player⟩
        if bestBid.amount - fillAmount = 0 then
          let r := matchBids askPrice (remaining - fillAmount) rest
          (f :: r.1, r.2.1, r.2.2)
        else
          ([f], remaining - fillAmount,
            { bestBid with amount := bestBid.amount - fillAmount } :: rest)
      else ([], remaining, bestBid :: rest)
    else ([], remaining, bestBid :: rest)

/-- `priceHistory` trim (part_003 lines 142–144): keep the last 1000
entries. -/
def trimHistory (h : List (Nat × ℚ)) : List (Nat × ℚ) :=
  if 1000 < h.length then h.drop (h.length - 1000) else h

/-- `bids.sort((a, b) => b.price - a.price)`: stable sort, highest price
first. -/
def sortBids (l : List MarketOrder) : List MarketOrder :=
  l.mergeSort fun a b => decide (b.price ≤ a.price)

/-- `asks.sort((a, b) => a.price - b.price)`: stable sort, lowest price
first. -/
def sortAsks (l : List MarketOrder) : List MarketOrder :=
  l.mergeSort fun a b => decide (a.price ≤ b.price)

/-- Events emitted inside the bid loop, in loop order: per fill a
`transferNits` credit of the fill amount to the buyer, then `notifyFill`
heat to the resting seller; after the loop `notifyFill` heat to the buyer
per fill (part_003 lines 79–95). -/
def bidEvents (buyer : String) (fills : List Fill) : List MEvent :=
  (fills.flatMap fun f =>
    [MEvent.transferNits buyer f.amount, MEvent.addHeat f.counterparty 2]) ++
    fills.map fun _ => MEvent.addHeat buyer 2

/-- Events emitted inside the ask loop: per fill a `transferNits` credit of
the fill amount to the resting buyer, then `notifyFill` heat to that buyer;
after the loop `notifyFill` heat to the seller per fill (part_003 lines
118–137). -/
def askEvents (seller : String) (fills : List Fill) : List MEvent :=
  (fills.flatMap fun f =>
    [MEvent.transferNits f.counterparty f.amount,
      MEvent.addHeat f.counterparty 2]) ++
    fills.map fun _ => MEvent.addHeat seller 2

/-- `lastPrice` is overwritten with each fill's price inside the loop, so it
ends at the last fill's price, or stays put when nothing matched. -/
def lastPriceAfter (old : ℚ) (fills : List Fill) : ℚ :=
  match fills.getLast? with
  | some f => f.price
  | none => old

/-- `placeOrder` (part_003 lines 54–149). Returns the new book state, the
fills array, and the cross-entity calls in emission order. -/
def placeOrder (s : MarketState) (order : MarketOrder) (now : Nat) :
    MarketState × List Fill × List MEvent :=
  match order.side with
  | .bid =>
    let m := matchAsks order.price order.amount s.asks
    let fills := m.1
    let remaining := m.2.1
    let bids' :=
      if 0 < remaining then sortBids (s.bids ++ [{ order with amount := remaining }])
      else s.bids
    ({ bids := bids'
       asks := m.2.2
       priceHistory := trimHistory
         (s.priceHistory ++ fills.map fun f => (now, f.price))
       lastPrice := lastPriceAfter s.lastPrice fills },
      fills, bidEvents order.player fills)
  | .ask =>
    let m := matchBids order.price order.amount s.bids
    let fills := m.1
    let remaining := m.2.1
    let asks' :=
      if 0 < remaining then sortAsks (s.asks ++ [{ order with amount := remaining }])
      else s.asks
    ({ bids := m.2.2
       asks := asks'
       priceHistory := trimHistory
         (s.priceHistory ++ fills.map fun f => (now, f.price))
       lastPrice := lastPriceAfter s.lastPrice fills },
      fills, askEvents order.player fills)

/-- `cancelOrder` (part_003 lines 151–174): find-and-splice first in `bids`
(no refund), then in `asks` (refunding the escrowed remainder via
`transferNits`); `none` models the 404 path, on which nothing is stored. -/
def cancelOrder (s : MarketState) (orderId player : String) :
    Option (MarketState × List MEvent) :=
  match eraseFirstMatch (fun o => o.id = orderId ∧ o.player = player) s.bids with
  | some (_, bids') => some ({ s with bids := bids' }, [])
  | none =>
    match eraseFirstMatch (fun o => o.id = orderId ∧ o.player = player) s.asks with
    | some (ask, asks') =>
      some ({ s with asks := asks' }, [MEvent.transferNits player ask.amount])
    | none => none

/-- Selector for the `transferNits` calls among a market call trace. -/
def isTransfer : MEvent → Bool
  | .transferNits _ _ => true
  | .addHeat _ _ => false

/-- The market book invariant of §3/§8: bids non-increasing by price, asks
non-decreasing by price, every resting order's amount strictly positive. -/
def BookInv (s : MarketState) : Prop :=
  s.bids.Pairwise (fun a b => b.price ≤ a.price) ∧
    s.asks.Pairwise (fun a b => a.price ≤ b.price) ∧
    (∀ o ∈ s.bids, 0 < o.amount) ∧ ∀ o ∈ s.asks, 0 < o.amount

instance (s : MarketState) : Decidable (BookInv s) := by
  unfold BookInv; infer_instance

end Market

/-! ## Route entity (`route.ts`, `RouteDO`) and the link handshake -/

namespace Route

inductive RouteStatus where
  | pending
  | active
  | inactive
deriving DecidableEq

/-- `RouteState` as constructed in `handleAcceptRoute`. -/
structure RouteState where
  id : String
  playerA : String
  playerB : String
  coordsA : ℚ × ℚ
  coordsB : ℚ × ℚ
  capacity : ℚ
  status : RouteStatus
  createdAt : Nat
deriving DecidableEq

/-- The mutations `RouteDO.fetch` applies after creation:
`/update-status` and `/upgrade-capacity` (route.ts lines 33–51). -/
inductive RouteOp where
  | updateStatus (st : RouteStatus)
  | upgradeCapacity (amount : ℚ)
deriving DecidableEq

def routeStep (r : RouteState) : RouteOp → RouteState
  | .updateStatus st => { r with status := st }
  | .upgradeCapacity amount => { r with capacity := r.capacity + amount }

def runRoute (r : RouteState) (ops : List RouteOp) : RouteState :=
  ops.foldl routeStep r

/-- The only caller of `/upgrade-capacity` in the repository is
`PlayerDO.handleUpgradeRoute`, which always sends
`capacityIncrease = 5` (part_004 lines 561 and 583–587); `/update-status`
has no caller but is part of the entity surface. -/
def WfRouteOp : RouteOp → Prop
  | .upgradeCapacity amount => amount = Player.capacityIncrease
  | .updateStatus _ => True

instance : DecidablePred WfRouteOp := by
  intro op; unfold WfRouteOp; cases op <;> infer_instance

def countUpgrades (ops : List RouteOp) : Nat :=
  ops.countP fun op => match op with
    | .upgradeCapacity _ => true
    | _ => false

end Route

namespace Player

/-- `handleAcceptRoute` (part_004 lines 318–383), state-relevant part: look
the route id up among B's pending requests; on a hit, build the immutable
route record — endpoints A (requester, at A's published coordinates) and B,
`capacity: 10`, `status: 'active'` — append the id to B's own routes and
drop the pending entry. The created record is what B POSTs to the Route
entity's `/create` and to A's `/route-accepted`. `fromPlayer` is the state
B fetched from the requesting player's `/state`. -/
def handleAcceptRoute (b : PlayerState)
    (pend : List (String × String)) (fromPlayer : PlayerState)
    (routeId : String) (now : Nat) :
    Option (PlayerState × List (String × String) × Route.RouteState) :=
  match pend.lookup routeId with
  | none => none
  | some fromName =>
    let route : Route.RouteState :=
      { id := routeId
        playerA := fromName
        playerB := b.username
        coordsA := fromPlayer.coordinates
        coordsB := b.coordinates
        capacity := 10
        status := .active
        createdAt := now }
    some ({ b with routes := b.routes ++ [routeId] },
      pend.filter (fun pa => pa.1 ≠ routeId), route)

/-- `handleRouteAcceptedNotification` (part_004 lines 385–403): the
requester appends the accepted route id to its own routes (when its player
record exists). -/
def handleRouteAcceptedNotification (a : Option PlayerState)
    (routeId : String) : Option PlayerState :=
  a.map fun p => { p with routes := p.routes ++ [routeId] }

/-- The two-party acceptance protocol for claim C7: B runs
`handleAcceptRoute` (which also creates the Route entity from the returned
record) and synchronously notifies A, who runs
`handleRouteAcceptedNotification`. Returns (A after, B after, stored route
record). -/
def acceptRouteProtocol (a b : PlayerState)
    (pend : List (String × String)) (routeId : String) (now : Nat) :
    Option (PlayerState × PlayerState × Route.RouteState) :=
  match handleAcceptRoute b pend a routeId now with
  | none => none
  | some (b', _, route) =>
    match handleRouteAcceptedNotification (some a) routeId with
    | some a' => some (a', b', route)
    | none => none

end Player

/-! ## Concrete states used by the scenario conjuncts and the witnesses -/

/-- A freshly discovered contested point: empty stakes, no controller. -/
def c1State : Intersection.IntersectionState :=
  { id := "poi1"
    coordinates := (0, 0)
    routes := ["r1", "r2"]
    custody := []
    investments := []
    controller := none
    totalInvested := 0
    lastActivity := 0
    createdAt := 0 }

/-- The point `p1` of the §8 decay scenario: stakes `{alice: 100}`, alice in
control, no activity since time 0. -/
def c5State : Intersection.IntersectionState :=
  { id := "p1"
    coordinates := (0, 0)
    routes := ["r1", "r2"]
    custody := ["alice"]
    investments := [("alice", 100)]
    controller := some "alice"
    totalInvested := 100
    lastActivity := 0
    createdAt := 0 }

/-- The resting ask `(price=5, amount=10)` of the §8 matching scenario. -/
def c3Ask : Market.MarketOrder :=
  { id := "a1", player := "seller", side := .ask, price := 5, amount := 10
    createdAt := 0 }

/-- Market with only the scenario ask resting. -/
def c3Book : Market.MarketState :=
  { bids := [], asks := [c3Ask], priceHistory := [], lastPrice := 1 }

/-- The incoming bid `(price=6, amount=4)` of the §8 matching scenario. -/
def c3Bid : Market.MarketOrder :=
  { id := "b1", player := "buyer", side := .bid, price := 6, amount := 4
    createdAt := 1 }

/-- A well-formed two-sided book used by the C4 witness. -/
def c4Book : Market.MarketState :=
  { bids := [{ id := "b1", player := "amy", side := .bid, price := 6
               amount := 3, createdAt := 0 },
             { id := "b2", player := "ben", side := .bid, price := 4
               amount := 2, createdAt := 0 }]
    asks := [{ id := "a1", player := "cat", side := .ask, price := 5
               amount := 2, createdAt := 0 },
             { id := "a2", player := "dan", side := .ask, price := 7
               amount := 4, createdAt := 0 }]
    priceHistory := []
    lastPrice := 1 }

/-- The crossing bid used by the C4 witness. -/
def c4Order : Market.MarketOrder :=
  { id := "n1", player := "eve", side := .bid, price := 5, amount := 1
    createdAt := 2 }

/-- The book used by the C10 witness: one bid owned by amy, one ask owned
by cat. -/
def c10Book : Market.MarketState :=
  { bids := [{ id := "b1", player := "amy", side := .bid, price := 6
               amount := 3, createdAt := 0 }]
    asks := [{ id := "a1", player := "cat", side := .ask, price := 7
               amount := 4, createdAt := 0 }]
    priceHistory := []
    lastPrice := 1 }

/-- A freshly created route as `handleAcceptRoute` writes it, used by the
C8 witness. -/
def c8Route : Route.RouteState :=
  { id := "alice-bob-9"
    playerA := "alice"
    playerB := "bob"
    coordsA := (1, 2)
    coordsB := (3, 4)
    capacity := 10
    status := .active
    createdAt := 9 }

/-- A low-heat player with the starting balance, used by the C9 witness. -/
def c9Poor : Player.PlayerState :=
  { Player.initPlayer "amy" (1, 1) 0 with heat := 40 }

/-- The same observable surface as `c9Poor` but a different balance. -/
def c9Rich : Player.PlayerState :=
  { Player.initPlayer "amy" (1, 1) 0 with nits := 9999, heat := 40 }

/-! ## Lemmas about the controller scan -/

namespace Intersection

theorem computeControllerAux_eq_none {inv : Stakes} {h : ℚ} {c : Option String}
    (hn : computeControllerAux inv h c = none) :
    c = none ∧ ∀ pa ∈ inv, pa.2 ≤ h := by
  induction inv generalizing h c with
  | nil =>
    simp only [computeControllerAux] at hn
    exact ⟨hn, by simp⟩
  | cons pa rest ih =>
    obtain ⟨p, amt⟩ := pa
    simp only [computeControllerAux] at hn
    by_cases hlt : h < amt
    · rw [if_pos hlt] at hn
      exact absurd (ih hn).1 (by simp)
    · rw [if_neg hlt] at hn
      obtain ⟨hc, hall⟩ := ih hn
      refine ⟨hc, ?_⟩
      intro x hx
      rcases List.mem_cons.mp hx with rfl | hx
      · exact le_of_not_lt hlt
      · exact hall x hx

theorem computeControllerAux_eq_some {inv : Stakes} {h : ℚ} {c : Option String}
    {k : String} (hs : computeControllerAux inv h c = some k) :
    (c = some k ∧ ∀ pa ∈ inv, pa.2 ≤ h) ∨
      ∃ v l1 l2, inv = l1 ++ (k, v) :: l2 ∧ h < v ∧
        (∀ pa ∈ l1, pa.2 < v) ∧ ∀ pa ∈ l2, pa.2 ≤ v := by
  induction inv generalizing h c with
  | nil =>
    simp only [computeControllerAux] at hs
    exact Or.inl ⟨hs, by simp⟩
  | cons pa rest ih =>
    obtain ⟨p, amt⟩ := pa
    simp only [computeControllerAux] at hs
    by_cases hlt : h < amt
    · rw [if_pos hlt] at hs
      rcases ih hs with ⟨hc, hall⟩ | ⟨v, l1, l2, heq, hv, h1, h2⟩
      · obtain rfl : p = k := by injection hc
        exact Or.inr ⟨amt, [], rest, by simp, hlt, by simp, hall⟩
      · refine Or.inr ⟨v, (p, amt) :: l1, l2, by rw [heq]; rfl,
          lt_trans hlt hv, ?_, h2⟩
        intro x hx
        rcases List.mem_cons.mp hx with rfl | hx
        · exact hv
        · exact h1 x hx
    · rw [if_neg hlt] at hs
      rcases ih hs with ⟨hc, hall⟩ | ⟨v, l1, l2, heq, hv, h1, h2⟩
      · refine Or.inl ⟨hc, ?_⟩
        intro x hx
        rcases List.mem_cons.mp hx with rfl | hx
        · exact le_of_not_lt hlt
        · exact hall x hx
      · refine Or.inr ⟨v, (p, amt) :: l1, l2, by rw [heq]; rfl, hv, ?_, h2⟩
        intro x hx
        rcases List.mem_cons.mp hx with rfl | hx
        · exact lt_of_le_of_lt (le_of_not_lt hlt) hv
        · exact h1 x hx

theorem computeController_firstArgmax {inv : Stakes} {k : String}
    (hs : computeController inv = some k) : FirstArgmax inv k := by
  rcases computeControllerAux_eq_some hs with ⟨hc, -⟩ | ⟨v, l1, l2, heq, -, h1, h2⟩
  · cases hc
  · exact ⟨v, l1, l2, heq, h1, h2⟩

theorem computeController_eq_none_iff {inv : Stakes}
    (hpos : ∀ pa ∈ inv, 0 < pa.2) :
    computeController inv = none ↔ inv = [] := by
  constructor
  · intro hn
    obtain ⟨-, hall⟩ := computeControllerAux_eq_none hn
    cases inv with
    | nil => rfl
    | cons pa rest =>
      exact absurd (hall pa (by simp)) (not_le.mpr (hpos pa (by simp)))
  · rintro rfl
    rfl

theorem insertIndexKey_perm (n : Nat) (key : String) (v : ℚ)
    (m : List (String × ℚ)) :
    (insertIndexKey n key v m).Perm ((key, v) :: m) := by
  induction m with
  | nil => exact List.Perm.refl _
  | cons kx rest ih =>
    obtain ⟨k, kv⟩ := kx
    simp only [insertIndexKey]
    split_ifs with h1 h2
    · exact List.Perm.refl _
    · exact (ih.cons _).trans (List.Perm.swap _ _ _)
    · exact List.Perm.refl _

theorem propBefore_to_nonIndex (k1 k2 : String)
    (h2 : isCanonicalIndex k2 = false) : propBefore k1 k2 = true := by
  unfold propBefore
  cases hk : isCanonicalIndex k1 <;> simp [hk, h2]

theorem propBefore_of_index_le (k1 k2 : String)
    (h1 : isCanonicalIndex k1 = true)
    (hle : digitVal k1 ≤ digitVal k2) : propBefore k1 k2 = true := by
  unfold propBefore
  cases hk : isCanonicalIndex k2 <;> simp [h1, hk, hle]

theorem nonIndex_propBefore (k y : String)
    (hk : isCanonicalIndex k = false) (hb : propBefore k y = true) :
    isCanonicalIndex y = false := by
  unfold propBefore at hb
  rw [hk] at hb
  simpa using hb

theorem index_propBefore_le (k y : String)
    (hk : isCanonicalIndex k = true) (hy : isCanonicalIndex y = true)
    (hb : propBefore k y = true) : digitVal k ≤ digitVal y := by
  unfold propBefore at hb
  rw [hk, hy] at hb
  simpa using hb

theorem insertIndexKey_propOrder (key : String) (v : ℚ)
    (m : List (String × ℚ)) (hidx : isCanonicalIndex key = true)
    (hord : PropOrder m) :
    PropOrder (insertIndexKey (digitVal key) key v m) := by
  induction m with
  | nil => simp [insertIndexKey, PropOrder]
  | cons kx rest ih =>
    obtain ⟨k, kv⟩ := kx
    unfold PropOrder at hord ⊢
    simp only [List.map_cons, List.pairwise_cons] at hord
    obtain ⟨hhead, htail⟩ := hord
    simp only [insertIndexKey]
    split_ifs with h1 h2
    · -- the new index key goes in front of (k, kv)
      simp only [List.map_cons, List.pairwise_cons]
      refine ⟨?_, ?_, htail⟩
      · intro y hy
        rcases List.mem_cons.mp hy with rfl | hy2
        · exact propBefore_of_index_le key y hidx (le_of_lt h2)
        · by_cases hyi : isCanonicalIndex y = true
          · exact propBefore_of_index_le key y hidx
              (le_trans (le_of_lt h2) (index_propBefore_le k y h1 hyi
                (hhead y hy2)))
          · exact propBefore_to_nonIndex key y (by simpa using hyi)
      · exact hhead
    · -- keep (k, kv) in front, insert into the tail
      simp only [List.map_cons, List.pairwise_cons]
      refine ⟨?_, ih htail⟩
      intro y hy
      have hy2 : y ∈ key :: rest.map Prod.fst :=
        ((insertIndexKey_perm (digitVal key) key v rest).map
          Prod.fst).mem_iff.mp hy
      rcases List.mem_cons.mp hy2 with rfl | hy3
      · exact propBefore_of_index_le k y h1 (by omega)
      · exact hhead y hy3
    · -- (k, kv) is a non-index key: the new index key goes in front
      simp only [List.map_cons, List.pairwise_cons]
      have hknon : isCanonicalIndex k = false := by simpa using h1
      refine ⟨?_, ?_, htail⟩
      · intro y hy
        rcases List.mem_cons.mp hy with rfl | hy2
        · exact propBefore_to_nonIndex key y hknon
        · exact propBefore_to_nonIndex key y
            (nonIndex_propBefore k y hknon (hhead y hy2))
      · exact hhead

theorem bumpEntry_allPos {m : List (String × ℚ)} {key : String} {amount : ℚ}
    (hpos : ∀ pa ∈ m, 0 < pa.2) (ha : 0 < amount) :
    ∀ pa ∈ bumpEntry m key amount, 0 < pa.2 := by
  intro pa hpa
  unfold bumpEntry at hpa
  split_ifs at hpa with h1 h2
  · rcases List.mem_map.mp hpa with ⟨x, hx, rfl⟩
    by_cases hk : x.1 = key
    · simpa [hk] using add_pos (hpos x hx) ha
    · simpa [hk] using hpos x hx
  · rcases List.mem_cons.mp
        ((insertIndexKey_perm (digitVal key) key amount m).mem_iff.mp hpa)
      with rfl | hmem
    · exact ha
    · exact hpos pa hmem
  · rcases List.mem_append.mp hpa with hx | hx
    · exact hpos pa hx
    · simp only [List.mem_singleton] at hx
      subst hx
      exact ha

theorem bumpEntry_keys (m : List (String × ℚ)) (key : String) (amount : ℚ)
    (hmem : key ∈ m.map Prod.fst) :
    (bumpEntry m key amount).map Prod.fst = m.map Prod.fst := by
  unfold bumpEntry
  rw [if_pos hmem, List.map_map]
  apply List.map_congr_left
  intro pa _
  by_cases hk : pa.1 = key <;> simp [hk]

theorem bumpEntry_nodupKeys {m : List (String × ℚ)} {key : String}
    {amount : ℚ} (hnd : (m.map Prod.fst).Nodup) :
    ((bumpEntry m key amount).map Prod.fst).Nodup := by
  by_cases hmem : key ∈ m.map Prod.fst
  · rw [bumpEntry_keys m key amount hmem]
    exact hnd
  · unfold bumpEntry
    rw [if_neg hmem]
    by_cases hidx : isCanonicalIndex key = true
    · rw [if_pos hidx]
      exact ((insertIndexKey_perm (digitVal key) key amount m).map
        Prod.fst).nodup_iff.mpr (List.nodup_cons.mpr ⟨hmem, hnd⟩)
    · rw [if_neg hidx, List.map_append]
      simp only [List.map_cons, List.map_nil]
      rw [List.nodup_append]
      exact ⟨hnd, List.nodup_singleton key, by simpa using hmem⟩

theorem bumpEntry_propOrder (m : List (String × ℚ)) (key : String)
    (amount : ℚ) (hord : PropOrder m) :
    PropOrder (bumpEntry m key amount) := by
  by_cases hmem : key ∈ m.map Prod.fst
  · unfold PropOrder
    rw [bumpEntry_keys m key amount hmem]
    exact hord
  · unfold bumpEntry
    rw [if_neg hmem]
    by_cases hidx : isCanonicalIndex key = true
    · rw [if_pos hidx]
      exact insertIndexKey_propOrder key amount m hidx hord
    · rw [if_neg hidx]
      unfold PropOrder
      rw [List.map_append]
      refine List.pairwise_append.mpr ⟨hord, ?_, ?_⟩
      · simp
      · intro a ha b hb
        simp only [List.map_cons, List.map_nil, List.mem_singleton] at hb
        subst hb
        exact propBefore_to_nonIndex a b (by simpa using hidx)

theorem decayStakes_allPos (inv : Stakes) :
    ∀ pa ∈ decayStakes inv, 0 < pa.2 := by
  intro pa hpa
  unfold decayStakes at hpa
  simpa using (List.mem_filter.mp hpa).2

/-- The keys surviving a decay sweep are a sublist of the original keys. -/
theorem decayStakes_keys_sublist (inv : Stakes) :
    ((decayStakes inv).map Prod.fst).Sublist (inv.map Prod.fst) := by
  unfold decayStakes
  have h1 : (((inv.map fun pa => (pa.1, ((⌊pa.2 * (9 / 10)⌋ : ℤ) : ℚ))).filter
      fun pa => 0 < pa.2).map Prod.fst).Sublist
      ((inv.map fun pa => (pa.1, ((⌊pa.2 * (9 / 10)⌋ : ℤ) : ℚ))).map
        Prod.fst) :=
    (List.filter_sublist _).map Prod.fst
  have h2 : ((inv.map fun pa => (pa.1, ((⌊pa.2 * (9 / 10)⌋ : ℤ) : ℚ))).map
      Prod.fst) = inv.map Prod.fst := by
    rw [List.map_map]
    rfl
  rw [h2] at h1
  exact h1

theorem decayStakes_nodupKeys {inv : Stakes}
    (hnd : (inv.map Prod.fst).Nodup) :
    ((decayStakes inv).map Prod.fst).Nodup :=
  hnd.sublist (decayStakes_keys_sublist inv)

theorem decayStakes_propOrder (inv : Stakes) (hord : PropOrder inv) :
    PropOrder (decayStakes inv) :=
  List.Pairwise.sublist (decayStakes_keys_sublist inv) hord

theorem invest_stakesInv (s : IntersectionState) (player : String)
    (amount : ℚ) (now : Nat) (hs : StakesInv s) (ha : 0 < amount) :
    StakesInv (invest s player amount now).1 :=
  ⟨bumpEntry_allPos hs.1 ha, bumpEntry_nodupKeys hs.2.1,
    bumpEntry_propOrder s.investments player amount hs.2.2.1, rfl⟩

theorem alarm_stakesInv (s : IntersectionState) (now : Nat)
    (hs : StakesInv s) : StakesInv (alarm s now).1 := by
  unfold alarm
  split
  · exact ⟨decayStakes_allPos _, decayStakes_nodupKeys hs.2.1,
      decayStakes_propOrder s.investments hs.2.2.1, rfl⟩
  · exact hs

/-- When the decay sweep fires, the stored controller is recomputed from the
decayed stakes by the shared controller scan. -/
theorem alarm_controller_fired (s : IntersectionState) (now : Nat)
    (hfire : DECAY_INTERVAL ≤ now - s.lastActivity) :
    (alarm s now).1.controller = computeController (decayStakes s.investments) := by
  unfold alarm
  rw [if_pos hfire]

end Intersection

/-! ## Lemmas about the player handlers -/

namespace Player

theorem heatClampUp (h c : ℤ) (hh0 : HEAT_MIN ≤ h) (hc : 0 ≤ c) :
    HEAT_MIN ≤ min HEAT_MAX (h + c) ∧ min HEAT_MAX (h + c) ≤ HEAT_MAX := by
  unfold HEAT_MIN HEAT_MAX at *
  omega

theorem heatClampBoth (h c : ℤ) :
    HEAT_MIN ≤ min HEAT_MAX (max HEAT_MIN (h + c)) ∧
      min HEAT_MAX (max HEAT_MIN (h + c)) ≤ HEAT_MAX := by
  unfold HEAT_MIN HEAT_MAX
  omega

theorem heatTickDown (h : ℤ) (hh1 : h ≤ HEAT_MAX) :
    HEAT_MIN ≤ max HEAT_MIN (h - HEAT_DECAY_PER_TICK) ∧
      max HEAT_MIN (h - HEAT_DECAY_PER_TICK) ≤ HEAT_MAX := by
  unfold HEAT_MIN HEAT_MAX HEAT_DECAY_PER_TICK at *
  omega

theorem step_preserves_PInv (w : PlayerWorld) (op : PlayerOp)
    (hwf : WfOp op) (hw : PInv w) : PInv (step w op) := by
  obtain ⟨hn, hh0, hh1, hp⟩ := hw
  cases op with
  | investPoi poiId amount =>
    simp only [step, handleOp, handleInvestPoi]
    split_ifs with h1 h2
    · exact ⟨hn, hh0, hh1, hp⟩
    · exact ⟨hn, hh0, hh1, hp⟩
    · obtain ⟨hu0, hu1⟩ := heatClampUp w.player.heat HEAT_POI_INVEST hh0
        (by unfold HEAT_POI_INVEST; omega)

      exact ⟨by simpa using sub_nonneg.mpr (le_of_not_lt h2), hu0, hu1, hp⟩
  | upgradeRoute routeId =>
    simp only [step, handleOp, handleUpgradeRoute]
    split_ifs with h1 h2
    · exact ⟨hn, hh0, hh1, hp⟩
    · obtain ⟨hu0, hu1⟩ := heatClampUp w.player.heat HEAT_ROUTE_UPGRADE hh0
        (by unfold HEAT_ROUTE_UPGRADE; omega)
      exact ⟨by simpa using sub_nonneg.mpr (le_of_not_lt h1), hu0, hu1, hp⟩
    · exact ⟨hn, hh0, hh1, hp⟩
  | placeOrder side price amount now =>
    simp only [step, handleOp, handlePlaceOrder]
    split_ifs with h1 hside
    · exact ⟨hn, hh0, hh1, hp⟩
    · have hle : ¬ w.player.nits < amount := fun hlt => h1 ⟨hside, hlt⟩
      obtain ⟨hu0, hu1⟩ := heatClampUp w.player.heat HEAT_TRADE hh0
        (by unfold HEAT_TRADE; omega)
      exact ⟨sub_nonneg.mpr (le_of_not_lt hle), hu0, hu1, hp⟩
    · obtain ⟨hu0, hu1⟩ := heatClampUp w.player.heat HEAT_TRADE hh0
        (by unfold HEAT_TRADE; omega)
      exact ⟨hn, hu0, hu1, hp⟩
  | cancelOrder orderId =>
    exact ⟨hn, hh0, hh1, hp⟩
  | updateNits delta =>
    simp only [step, handleOp, handleUpdateNits]
    split_ifs with h1
    · exact ⟨le_refl 0, hh0, hh1, hp⟩
    · exact ⟨le_of_not_lt h1, hh0, hh1, hp⟩
  | addHeat amount =>
    obtain ⟨hu0, hu1⟩ := heatClampBoth w.player.heat amount
    exact ⟨hn, hu0, hu1, hp⟩
  | poiControlChanged poiId isCtrl =>
    simp only [step, handleOp, handlePoiControlChanged]
    split_ifs with h1 h2
    · obtain ⟨hu0, hu1⟩ := heatClampUp w.player.heat HEAT_POI_WIN hh0
        (by unfold HEAT_POI_WIN; omega)
      exact ⟨hn, hu0, hu1, hp⟩
    · exact ⟨hn, hh0, hh1, hp⟩
    · exact ⟨hn, hh0, hh1, hp⟩
  | tollReceived amount =>
    have ha : (0 : ℚ) ≤ amount := hwf
    exact ⟨add_nonneg hn ha, hh0, hh1, hp⟩
  | tick =>
    obtain ⟨hu0, hu1⟩ := heatTickDown w.player.heat hh1
    refine ⟨?_, hu0, hu1, hp⟩
    have hb : (0 : ℚ) ≤ (w.controlledPois.length : ℚ) * POI_PRODUCTION_BONUS :=
      mul_nonneg (Nat.cast_nonneg _) (by unfold POI_PRODUCTION_BONUS; norm_num)
    exact add_nonneg hn (add_nonneg hp hb)

theorem run_preserves_PInv (w : PlayerWorld) (ops : List PlayerOp)
    (hwf : ∀ op ∈ ops, WfOp op) (hw : PInv w) : PInv (run w ops) := by
  induction ops generalizing w with
  | nil => exact hw
  | cons op rest ih =>
    exact ih (step w op) (fun o ho => hwf o (List.mem_cons_of_mem op ho))
      (step_preserves_PInv w op (hwf op (List.mem_cons_self op rest)) hw)

end Player

/-! ## Lemmas about the matching engine -/

namespace Market

theorem matchAsks_asks_pairwise (bp : ℚ) (remaining : ℚ)
    (asks : List MarketOrder)
    (hs : asks.Pairwise fun a b => a.price ≤ b.price) :
    (matchAsks bp remaining asks).2.2.Pairwise fun a b => a.price ≤ b.price := by
  induction asks generalizing remaining with
  | nil => exact hs
  | cons bestAsk rest ih =>
    rw [List.pairwise_cons] at hs
    simp only [matchAsks]
    split_ifs with h1 h2 h3
    · exact ih (remaining - min remaining bestAsk.amount) hs.2
    · rw [List.pairwise_cons]
      exact ⟨fun b hb => hs.1 b hb, hs.2⟩
    · rw [List.pairwise_cons]
      exact ⟨hs.1, hs.2⟩
    · rw [List.pairwise_cons]
      exact ⟨hs.1, hs.2⟩

theorem matchAsks_asks_pos (bp remaining : ℚ) (asks : List MarketOrder)
    (hpos : ∀ o ∈ asks, 0 < o.amount) :
    ∀ o ∈ (matchAsks bp remaining asks).2.2, 0 < o.amount := by
  induction asks generalizing remaining with
  | nil =>
    intro o ho
    simp [matchAsks] at ho
  | cons bestAsk rest ih =>
    intro o ho
    simp only [matchAsks] at ho
    split_ifs at ho with h1 h2 h3
    · exact ih (remaining - min remaining bestAsk.amount)
        (fun x hx => hpos x (List.mem_cons_of_mem _ hx)) o ho
    · rcases List.mem_cons.mp ho with rfl | hmem
      · have hle : (0 : ℚ) ≤ bestAsk.amount - min remaining bestAsk.amount :=
          sub_nonneg.mpr (min_le_right _ _)
        exact lt_of_le_of_ne hle (Ne.symm h3)
      · exact hpos o (List.mem_cons_of_mem _ hmem)
    · exact hpos o ho
    · exact hpos o ho

theorem matchAsks_asks_trace (bp remaining : ℚ) (asks : List MarketOrder) :
    ∀ o ∈ (matchAsks bp remaining asks).2.2, ∃ a ∈ asks,
      o.id = a.id ∧ o.price = a.price ∧ o.amount ≤ a.amount := by
  induction asks generalizing remaining with
  | nil =>
    intro o ho
    simp [matchAsks] at ho
  | cons bestAsk rest ih =>
    intro o ho
    simp only [matchAsks] at ho
    split_ifs at ho with h1 h2 h3
    · obtain ⟨a, ha, h⟩ := ih (remaining - min remaining bestAsk.amount) o ho
      exact ⟨a, List.mem_cons_of_mem _ ha, h⟩
    · rcases List.mem_cons.mp ho with rfl | hmem
      · have hmin : min remaining bestAsk.amount = remaining := by
          rcases min_choice remaining bestAsk.amount with h | h
          · exact h
          · exact absurd (by rw [h, sub_self]) h3
        refine ⟨bestAsk, List.mem_cons_self _ _, rfl, rfl, ?_⟩
        rw [hmin]
        exact sub_le_self _ (le_of_lt h1)
      · exact ⟨o, List.mem_cons_of_mem _ hmem, rfl, rfl, le_refl _⟩
    · rcases List.mem_cons.mp ho with rfl | hmem
      · exact ⟨o, List.mem_cons_self _ _, rfl, rfl, le_refl _⟩
      · exact ⟨o, List.mem_cons_of_mem _ hmem, rfl, rfl, le_refl _⟩
    · rcases List.mem_cons.mp ho with rfl | hmem
      · exact ⟨o, List.mem_cons_self _ _, rfl, rfl, le_refl _⟩
      · exact ⟨o, List.mem_cons_of_mem _ hmem, rfl, rfl, le_refl _⟩

theorem matchAsks_remaining_le (bp remaining : ℚ) (asks : List MarketOrder)
    (hpos : ∀ o ∈ asks, 0 < o.amount) :
    (matchAsks bp remaining asks).2.1 ≤ remaining := by
  induction asks generalizing remaining with
  | nil => simp [matchAsks]
  | cons bestAsk rest ih =>
    simp only [matchAsks]
    split_ifs with h1 h2 h3
    · have hf : (0 : ℚ) < min remaining bestAsk.amount :=
        lt_min h1 (hpos bestAsk (List.mem_cons_self _ _))
      calc (matchAsks bp (remaining - min remaining bestAsk.amount) rest).2.1
          ≤ remaining - min remaining bestAsk.amount :=
            ih _ (fun x hx => hpos x (List.mem_cons_of_mem _ hx))
        _ ≤ remaining := sub_le_self _ (le_of_lt hf)
    · exact sub_le_self _
        (le_of_lt (lt_min h1 (hpos bestAsk (List.mem_cons_self _ _))))
    · exact le_refl _
    · exact le_refl _

theorem matchAsks_fills (bp remaining : ℚ) (asks : List MarketOrder) :
    ∀ f ∈ (matchAsks bp remaining asks).1, f.price ≤ bp ∧ ∃ a ∈ asks,
      a.id = f.orderId ∧ a.price = f.price ∧ a.player = f.counterparty ∧
        f.amount ≤ a.amount := by
  induction asks generalizing remaining with
  | nil =>
    intro f hf
    simp [matchAsks] at hf
  | cons bestAsk rest ih =>
    intro f hf
    simp only [matchAsks] at hf
    split_ifs at hf with h1 h2 h3
    · rcases List.mem_cons.mp hf with rfl | hmem
      · exact ⟨h2, bestAsk, List.mem_cons_self _ _, rfl, rfl, rfl,
          min_le_right _ _⟩
      · obtain ⟨hp, a, ha, h⟩ := ih (remaining - min remaining bestAsk.amount)
          f hmem
        exact ⟨hp, a, List.mem_cons_of_mem _ ha, h⟩
    · rcases List.mem_cons.mp hf with rfl | hmem
      · exact ⟨h2, bestAsk, List.mem_cons_self _ _, rfl, rfl, rfl,
          min_le_right _ _⟩
      · simp at hmem
    · simp at hf
    · simp at hf

theorem matchAsks_head (bp rem : ℚ) (a : MarketOrder)
    (rest : List MarketOrder) (hrem : 0 < rem) (hpr : a.price ≤ bp) :
    ∃ tl, (matchAsks bp rem (a :: rest)).1 =
      Fill.mk a.id (min rem a.amount) a.price a.player :: tl := by
  simp only [matchAsks]
  rw [if_pos hrem, if_pos hpr]
  split_ifs with h3
  · exact ⟨_, rfl⟩
  · exact ⟨[], rfl⟩

theorem matchBids_bids_pairwise (ap : ℚ) (remaining : ℚ)
    (bids : List MarketOrder)
    (hs : bids.Pairwise fun a b => b.price ≤ a.price) :
    (matchBids ap remaining bids).2.2.Pairwise fun a b => b.price ≤ a.price := by
  induction bids generalizing remaining with
  | nil => exact hs
  | cons bestBid rest ih =>
    rw [List.pairwise_cons] at hs
    simp only [matchBids]
    split_ifs with h1 h2 h3
    · exact ih (remaining - min remaining bestBid.amount) hs.2
    · rw [List.pairwise_cons]
      exact ⟨fun b hb => hs.1 b hb, hs.2⟩
    · rw [List.pairwise_cons]
      exact ⟨hs.1, hs.2⟩
    · rw [List.pairwise_cons]
      exact ⟨hs.1, hs.2⟩

theorem matchBids_bids_pos (ap remaining : ℚ) (bids : List MarketOrder)
    (hpos : ∀ o ∈ bids, 0 < o.amount) :
    ∀ o ∈ (matchBids ap remaining bids).2.2, 0 < o.amount := by
  induction bids generalizing remaining with
  | nil =>
    intro o ho
    simp [matchBids] at ho
  | cons bestBid rest ih =>
    intro o ho
    simp only [matchBids] at ho
    split_ifs at ho with h1 h2 h3
    · exact ih (remaining - min remaining bestBid.amount)
        (fun x hx => hpos x (List.mem_cons_of_mem _ hx)) o ho
    · rcases List.mem_cons.mp ho with rfl | hmem
      · have hle : (0 : ℚ) ≤ bestBid.amount - min remaining bestBid.amount :=
          sub_nonneg.mpr (min_le_right _ _)
        exact lt_of_le_of_ne hle (Ne.symm h3)
      · exact hpos o (List.mem_cons_of_mem _ hmem)
    · exact hpos o ho
    · exact hpos o ho

theorem matchBids_bids_trace (ap remaining : ℚ) (bids : List MarketOrder) :
    ∀ o ∈ (matchBids ap remaining bids).2.2, ∃ a ∈ bids,
      o.id = a.id ∧ o.price = a.price ∧ o.amount ≤ a.amount := by
  induction bids generalizing remaining with
  | nil =>
    intro o ho
    simp [matchBids] at ho
  | cons bestBid rest ih =>
    intro o ho
    simp only [matchBids] at ho
    split_ifs at ho with h1 h2 h3
    · obtain ⟨a, ha, h⟩ := ih (remaining - min remaining bestBid.amount) o ho
      exact ⟨a, List.mem_cons_of_mem _ ha, h⟩
    · rcases List.mem_cons.mp ho with rfl | hmem
      · have hmin : min remaining bestBid.amount = remaining := by
          rcases min_choice remaining bestBid.amount with h | h
          · exact h
          · exact absurd (by rw [h, sub_self]) h3
        refine ⟨bestBid, List.mem_cons_self _ _, rfl, rfl, ?_⟩
        rw [hmin]
        exact sub_le_self _ (le_of_lt h1)
      · exact ⟨o, List.mem_cons_of_mem _ hmem, rfl, rfl, le_refl _⟩
    · rcases List.mem_cons.mp ho with rfl | hmem
      · exact ⟨o, List.mem_cons_self _ _, rfl, rfl, le_refl _⟩
      · exact ⟨o, List.mem_cons_of_mem _ hmem, rfl, rfl, le_refl _⟩
    · rcases List.mem_cons.mp ho with rfl | hmem
      · exact ⟨o, List.mem_cons_self _ _, rfl, rfl, le_refl _⟩
      · exact ⟨o, List.mem_cons_of_mem _ hmem, rfl, rfl, le_refl _⟩

theorem matchBids_remaining_le (ap remaining : ℚ) (bids : List MarketOrder)
    (hpos : ∀ o ∈ bids, 0 < o.amount) :
    (matchBids ap remaining bids).2.1 ≤ remaining := by
  induction bids generalizing remaining with
  | nil => simp [matchBids]
  | cons bestBid rest ih =>
    simp only [matchBids]
    split_ifs with h1 h2 h3
    · have hf : (0 : ℚ) < min remaining bestBid.amount :=
        lt_min h1 (hpos bestBid (List.mem_cons_self _ _))
      calc (matchBids ap (remaining - min remaining bestBid.amount) rest).2.1
          ≤ remaining - min remaining bestBid.amount :=
            ih _ (fun x hx => hpos x (List.mem_cons_of_mem _ hx))
        _ ≤ remaining := sub_le_self _ (le_of_lt hf)
    · exact sub_le_self _
        (le_of_lt (lt_min h1 (hpos bestBid (List.mem_cons_self _ _))))
    · exact le_refl _
    · exact le_refl _

theorem sortBids_pairwise (l : List MarketOrder) :
    (sortBids l).Pairwise fun a b => b.price ≤ a.price := by
  have htrans : ∀ a b c : MarketOrder,
      decide (b.price ≤ a.price) = true → decide (c.price ≤ b.price) = true →
        decide (c.price ≤ a.price) = true := by
    intro a b c hab hbc
    rw [decide_eq_true_eq] at hab hbc ⊢
    exact le_trans hbc hab
  have htotal : ∀ a b : MarketOrder,
      (decide (b.price ≤ a.price) || decide (a.price ≤ b.price)) = true := by
    intro a b
    rcases le_total b.price a.price with h | h <;> simp [h]
  exact (List.sorted_mergeSort htrans htotal l).imp
    fun hab => of_decide_eq_true hab

theorem sortAsks_pairwise (l : List MarketOrder) :
    (sortAsks l).Pairwise fun a b => a.price ≤ b.price := by
  have htrans : ∀ a b c : MarketOrder,
      decide (a.price ≤ b.price) = true → decide (b.price ≤ c.price) = true →
        decide (a.price ≤ c.price) = true := by
    intro a b c hab hbc
    rw [decide_eq_true_eq] at hab hbc ⊢
    exact le_trans hab hbc
  have htotal : ∀ a b : MarketOrder,
      (decide (a.price ≤ b.price) || decide (b.price ≤ a.price)) = true := by
    intro a b
    rcases le_total a.price b.price with h | h <;> simp [h]
  exact (List.sorted_mergeSort htrans htotal l).imp
    fun hab => of_decide_eq_true hab

theorem sortBids_mem (l : List MarketOrder) (o : MarketOrder) :
    o ∈ sortBids l ↔ o ∈ l :=
  (List.mergeSort_perm l _).mem_iff

theorem sortAsks_mem (l : List MarketOrder) (o : MarketOrder) :
    o ∈ sortAsks l ↔ o ∈ l :=
  (List.mergeSort_perm l _).mem_iff

theorem eraseFirstMatch_eq_none {α : Type} (p : α → Prop) [DecidablePred p]
    (l : List α) :
    eraseFirstMatch p l = none ↔ ∀ x ∈ l, ¬ p x := by
  induction l with
  | nil => simp [eraseFirstMatch]
  | cons x rest ih =>
    simp only [eraseFirstMatch]
    by_cases hp : p x
    · simp [hp]
    · rw [if_neg hp]
      cases h : eraseFirstMatch p rest with
      | some v =>
        obtain ⟨m, r'⟩ := v
        rw [h] at ih
        have hex : ¬ ∀ y ∈ rest, ¬ p y := by
          rw [← ih]
          simp
        simp only [List.forall_mem_cons]
        constructor
        · intro hcon
          exact absurd hcon (Option.some_ne_none _)
        · intro hall
          exact absurd hall.2 hex
      | none =>
        rw [h] at ih
        have hrest := ih.mp rfl
        simp only [List.forall_mem_cons]
        simp only [hp, not_false_iff, true_and, eq_self_iff_true, true_iff]
        exact hrest

theorem eraseFirstMatch_eq_some {α : Type} (p : α → Prop) [DecidablePred p]
    (l : List α) (m : α) (l' : List α)
    (h : eraseFirstMatch p l = some (m, l')) :
    p m ∧ m ∈ l ∧ l'.Sublist l ∧ l'.length + 1 = l.length ∧
      ∀ x ∈ l, ¬ p x → x ∈ l' := by
  induction l generalizing l' with
  | nil => simp [eraseFirstMatch] at h
  | cons x rest ih =>
    simp only [eraseFirstMatch] at h
    by_cases hp : p x
    · rw [if_pos hp] at h
      simp only [Option.some.injEq, Prod.mk.injEq] at h
      obtain ⟨rfl, rfl⟩ := h
      refine ⟨hp, List.mem_cons_self _ _, List.sublist_cons_self _ _, rfl, ?_⟩
      intro y hy hny
      rcases List.mem_cons.mp hy with rfl | hmem
      · exact absurd hp hny
      · exact hmem
    · rw [if_neg hp] at h
      cases hrec : eraseFirstMatch p rest with
      | none =>
        rw [hrec] at h
        cases h
      | some v =>
        obtain ⟨m2, r2⟩ := v
        rw [hrec] at h
        simp only [Option.some.injEq, Prod.mk.injEq] at h
        obtain ⟨rfl, rfl⟩ := h
        obtain ⟨hpm, hml, hsub, hlen, hmem⟩ := ih r2 hrec
        refine ⟨hpm, List.mem_cons_of_mem _ hml, hsub.cons₂ x,
          by simpa using hlen, ?_⟩
        intro y hy hny
        rcases List.mem_cons.mp hy with rfl | hmem2
        · exact List.mem_cons_self _ _
        · exact List.mem_cons_of_mem _ (hmem y hmem2 hny)

theorem filter_isTransfer_flatMap (buyer : String) (fills : List Fill) :
    ((fills.flatMap fun f =>
        [MEvent.transferNits buyer f.amount,
          MEvent.addHeat f.counterparty 2]).filter isTransfer) =
      fills.map fun f => MEvent.transferNits buyer f.amount := by
  induction fills with
  | nil => rfl
  | cons f rest ih =>
    simp only [List.flatMap_cons, List.filter_append, ih, List.map_cons]
    rfl

theorem filter_isTransfer_heatMap (buyer : String) (fills : List Fill) :
    ((fills.map fun _ => MEvent.addHeat buyer 2).filter isTransfer) = [] := by
  induction fills with
  | nil => rfl
  | cons f rest ih => simp [isTransfer, ih]

theorem bidEvents_transfers (buyer : String) (fills : List Fill) :
    (bidEvents buyer fills).filter isTransfer =
      fills.map fun f => MEvent.transferNits buyer f.amount := by
  unfold bidEvents
  rw [List.filter_append, filter_isTransfer_flatMap,
    filter_isTransfer_heatMap, List.append_nil]

end Market

/-! ## Claim theorems -/

/-- C1 as frozen is false of the code: the tie among maximal stakes is not
resolved to the earliest-inserted key. `c1State` receives an investment of
10 from `alice` first and then 10 from player `"42"` (a legal username and
a canonical array-index key); `Object.entries` iterates `"42"` before the
earlier-inserted `alice`, so the stored stakes read `[("42",10),
("alice",10)]` and the controller scan stores `"42"`, not the
first-observed `alice`. -/
theorem C1_earliest_tie_counterexample :
    (Intersection.invest (Intersection.invest c1State "alice" 10 1).1
        "42" 10 2).1.investments = [("42", 10), ("alice", 10)] ∧
    (Intersection.invest (Intersection.invest c1State "alice" 10 1).1
        "42" 10 2).1.controller = some "42" ∧
    "42" ≠ "alice" := by
  refine ⟨by decide, by decide, by decide⟩

/-- C1 amended: for every Contested-Point, after every invest operation and
after every decay sweep, the stored controller is null iff the stakes map
is empty, and otherwise equals the stakes key whose value is strictly
maximal, with ties resolved to the key that comes first in ECMAScript
own-property iteration order — canonical-integer usernames ascending before
all other keys in first-observed order (`PropOrder`); when no tied maximal
key is purely numeric this coincides with the earliest-inserted key. Both
the invest path and the decay path recompute the controller under this same
rule (`computeController`). Stated as preservation of the reachable-state
invariant `StakesInv` (positive stakes, distinct keys, property-ordered
storage, stored controller = scan result), for a positive investment amount
as validated by `PlayerDO.handleInvestPoi`. -/
theorem C1_controller_argmax
    (s : Intersection.IntersectionState) (player : String) (amount : ℚ)
    (now : Nat) (hs : Intersection.StakesInv s) (ha : 0 < amount) :
    Intersection.StakesInv (Intersection.invest s player amount now).1 ∧
    Intersection.StakesInv (Intersection.alarm s now).1 ∧
    (Intersection.invest s player amount now).1.controller =
      Intersection.computeController
        (bumpEntry s.investments player amount) ∧
    ((Intersection.invest s player amount now).1.controller = none ↔
      (Intersection.invest s player amount now).1.investments = []) ∧
    (∀ k, (Intersection.invest s player amount now).1.controller = some k →
      Intersection.FirstArgmax
        (Intersection.invest s player amount now).1.investments k) ∧
    ((Intersection.alarm s now).1.controller = none ↔
      (Intersection.alarm s now).1.investments = []) ∧
    (∀ k, (Intersection.alarm s now).1.controller = some k →
      Intersection.FirstArgmax (Intersection.alarm s now).1.investments k) := by
  have h1 := Intersection.invest_stakesInv s player amount now hs ha
  have h2 := Intersection.alarm_stakesInv s now hs
  refine ⟨h1, h2, rfl, ?_, ?_, ?_, ?_⟩
  · rw [h1.2.2.2]
    exact Intersection.computeController_eq_none_iff h1.1
  · intro k hk
    exact Intersection.computeController_firstArgmax (h1.2.2.2 ▸ hk)
  · rw [h2.2.2.2]
    exact Intersection.computeController_eq_none_iff h2.1
  · intro k hk
    exact Intersection.computeController_firstArgmax (h2.2.2.2 ▸ hk)

/-- Witness for C1: the fresh point `c1State` satisfies the invariant and
an investment of 5 by alice is positive. -/
theorem C1_controller_argmax_witness :
    Intersection.StakesInv c1State ∧ (0 : ℚ) < 5 ∧
      (Intersection.StakesInv (Intersection.invest c1State "alice" 5 7).1 ∧
      Intersection.StakesInv (Intersection.alarm c1State 7).1 ∧
      (Intersection.invest c1State "alice" 5 7).1.controller =
        Intersection.computeController (bumpEntry c1State.investments "alice" 5) ∧
      ((Intersection.invest c1State "alice" 5 7).1.controller = none ↔
        (Intersection.invest c1State "alice" 5 7).1.investments = []) ∧
      (∀ k, (Intersection.invest c1State "alice" 5 7).1.controller = some k →
        Intersection.FirstArgmax
          (Intersection.invest c1State "alice" 5 7).1.investments k) ∧
      ((Intersection.alarm c1State 7).1.controller = none ↔
        (Intersection.alarm c1State 7).1.investments = []) ∧
      (∀ k, (Intersection.alarm c1State 7).1.controller = some k →
        Intersection.FirstArgmax (Intersection.alarm c1State 7).1.investments k)) :=
  ⟨by decide, by norm_num,
    C1_controller_argmax c1State "alice" 5 7 (by decide) (by norm_num)⟩

/-- C5 as frozen is false of the code in its tie-rule part: the decay path
does not resolve a tie to the earliest-inserted (first-observed) key. After
`alice` invests 10 and then player `"42"` invests 10, a fired decay sweep
floors both stakes to 9; `Object.entries` iterates the canonical-integer
key `"42"` before the earlier-inserted `alice`, so the recomputed
controller is `"42"`, not the first-observed `alice`. -/
theorem C5_decay_tie_counterexample :
    (Intersection.alarm (Intersection.invest (Intersection.invest c1State
        "alice" 10 1).1 "42" 10 2).1
        (2 + Intersection.DECAY_INTERVAL)).1.investments =
      [("42", 9), ("alice", 9)] ∧
    (Intersection.alarm (Intersection.invest (Intersection.invest c1State
        "alice" 10 1).1 "42" 10 2).1
        (2 + Intersection.DECAY_INTERVAL)).1.controller = some "42" ∧
    "42" ≠ "alice" := by
  refine ⟨by decide, by decide, by decide⟩

/-- C5 amended: a decay sweep on a point whose `lastActivity` is at least
`DECAY_INTERVAL` in the past multiplies every stake by `1 - decayRate` and
floors it (`decayStakes`), removes stakes that reach zero, recomputes
`totalInvested` and the controller with the same tie rule as the invest
path — the first key in ECMAScript own-property iteration order
(canonical-integer usernames ascending before all other keys in
first-observed order) holding the maximal stake — keeps the stored map in
that iteration order (`PropOrder`), and fires control-change notifications
through the same `controlNotifications` rule as the invest path. Scenario:
`{alice: 100}` becomes `{alice: 90}` with controller alice after one sweep,
and after 28 sweeps the stakes are empty and the controller is null. -/
theorem C5_decay_sweep (s : Intersection.IntersectionState) (now : Nat)
    (hfire : Intersection.DECAY_INTERVAL ≤ now - s.lastActivity) :
    ((Intersection.alarm s now).1.investments =
        Intersection.decayStakes s.investments ∧
      (Intersection.alarm s now).1.totalInvested =
        Intersection.sumStakes (Intersection.decayStakes s.investments) ∧
      (Intersection.alarm s now).1.controller =
        Intersection.computeController
          (Intersection.decayStakes s.investments) ∧
      (Intersection.alarm s now).2 =
        Intersection.controlNotifications s.id s.controller
          (Intersection.computeController
            (Intersection.decayStakes s.investments))) ∧
    (∀ player amount n2,
      (Intersection.invest s player amount n2).2 =
        Intersection.controlNotifications s.id s.controller
          (Intersection.computeController
            (bumpEntry s.investments player amount))) ∧
    (∀ k, (Intersection.alarm s now).1.controller = some k →
      Intersection.FirstArgmax (Intersection.alarm s now).1.investments k) ∧
    (PropOrder s.investments →
      PropOrder (Intersection.alarm s now).1.investments) ∧
    ((Intersection.decaySweep c5State).investments = [("alice", 90)] ∧
      (Intersection.decaySweep c5State).controller = some "alice") ∧
    ((Intersection.decaySweep^[28] c5State).investments = [] ∧
      (Intersection.decaySweep^[28] c5State).controller = none) := by
  refine ⟨?_, fun player amount n2 => rfl, ?_, ?_, by decide, by decide⟩
  · unfold Intersection.alarm
    rw [if_pos hfire]
    exact ⟨rfl, rfl, rfl, rfl⟩
  · intro k hk
    rw [Intersection.alarm_controller_fired s now hfire] at hk
    have h := Intersection.computeController_firstArgmax hk
    unfold Intersection.alarm
    rw [if_pos hfire]
    exact h
  · intro hord
    unfold Intersection.alarm
    rw [if_pos hfire]
    exact Intersection.decayStakes_propOrder s.investments hord

/-- C2: Starting from a freshly authenticated Node, after any finite
sequence of operations (invest, upgrade, place/cancel order, market
credit/debit callbacks, heat adjustments, control changes, toll credits and
production ticks — with toll credits nonnegative, as the contested point
only ever sends a positive floored toll) the balance stays `≥ 0` and the
heat stays in `[0, 100]`; and a debit larger than the balance clamps the
balance to exactly 0. -/
theorem C2_balance_and_heat_invariant (username : String) (coords : ℚ × ℚ)
    (t0 : Nat) (ops : List Player.PlayerOp)
    (hwf : ∀ op ∈ ops, Player.WfOp op) :
    Player.PInv (Player.run (Player.initWorld username coords t0) ops) ∧
    (∀ (w : Player.PlayerWorld) (delta : ℚ), w.player.nits + delta < 0 →
      ((Player.handleUpdateNits w delta).1).player.nits = 0) := by
  constructor
  · refine Player.run_preserves_PInv (Player.initWorld username coords t0) ops
      hwf ⟨?_, ?_, ?_, ?_⟩
    · show (0 : ℚ) ≤ 100
      norm_num
    · show Player.HEAT_MIN ≤ 0
      unfold Player.HEAT_MIN
      omega
    · show (0 : ℤ) ≤ Player.HEAT_MAX
      unfold Player.HEAT_MAX
      omega
    · show (0 : ℚ) ≤ 1
      norm_num
  · intro w delta hlt
    simp [Player.handleUpdateNits, if_pos hlt]

/-- Witness for C2: a concrete operation sequence exercising every handler,
including an oversized debit, an oversized heat credit and a production
tick. -/
theorem C2_balance_and_heat_invariant_witness :
    (∀ op ∈ ([.updateNits (-500), .tollReceived 7, .investPoi "poi1" 30,
        .placeOrder .ask 5 40 3, .upgradeRoute "r1", .cancelOrder "o1",
        .addHeat 300, .addHeat (-900), .poiControlChanged "poi1" true,
        .tick] : List Player.PlayerOp), Player.WfOp op) ∧
    (Player.PInv (Player.run (Player.initWorld "alice" (0, 0) 0)
        [.updateNits (-500), .tollReceived 7, .investPoi "poi1" 30,
        .placeOrder .ask 5 40 3, .upgradeRoute "r1", .cancelOrder "o1",
        .addHeat 300, .addHeat (-900), .poiControlChanged "poi1" true,
        .tick]) ∧
      ∀ (w : Player.PlayerWorld) (delta : ℚ), w.player.nits + delta < 0 →
        ((Player.handleUpdateNits w delta).1).player.nits = 0) :=
  ⟨by decide, C2_balance_and_heat_invariant "alice" (0, 0) 0 _ (by decide)⟩

/-- C6: A Node command that fails validation (non-positive investment
amount) or resource sufficiency (balance below the investment amount, or
below the 50-nit upgrade cost) reports an error to the caller and mutates
nothing: the handler returns the world unchanged and emits exactly one
error message — in particular no cross-entity call reaches any other
entity. -/
theorem C6_failed_commands_mutate_nothing (w : Player.PlayerWorld)
    (poiId routeId : String) (amount : ℚ)
    (hbad : amount ≤ 0 ∨ w.player.nits < amount)
    (hpoor : w.player.nits < Player.upgradeCost) :
    ((Player.handleInvestPoi w poiId amount).1 = w ∧
      ∃ msg, (Player.handleInvestPoi w poiId amount).2 =
        [Player.PEff.sendError msg]) ∧
    ((Player.handleUpgradeRoute w routeId).1 = w ∧
      ∃ msg, (Player.handleUpgradeRoute w routeId).2 =
        [Player.PEff.sendError msg]) := by
  constructor
  · by_cases h0 : amount ≤ 0
    · unfold Player.handleInvestPoi
      rw [if_pos h0]
      exact ⟨rfl, _, rfl⟩
    · have hlt : w.player.nits < amount := hbad.resolve_left h0
      unfold Player.handleInvestPoi
      rw [if_neg h0, if_pos hlt]
      exact ⟨rfl, _, rfl⟩
  · unfold Player.handleUpgradeRoute
    rw [if_pos hpoor]
    exact ⟨rfl, _, rfl⟩

/-- Witness for C6: a player with 10 nits cannot invest 25 nor afford the
50-nit upgrade. -/
theorem C6_failed_commands_mutate_nothing_witness :
    ((25 : ℚ) ≤ 0 ∨
      ({ player := { Player.initPlayer "bob" (0, 0) 0 with nits := 10 }
         controlledPois := [] } : Player.PlayerWorld).player.nits < 25) ∧
    ({ player := { Player.initPlayer "bob" (0, 0) 0 with nits := 10 }
       controlledPois := [] } : Player.PlayerWorld).player.nits <
      Player.upgradeCost ∧
    (((Player.handleInvestPoi
        { player := { Player.initPlayer "bob" (0, 0) 0 with nits := 10 }
          controlledPois := [] } "poi1" 25).1 =
        { player := { Player.initPlayer "bob" (0, 0) 0 with nits := 10 }
          controlledPois := [] } ∧
      ∃ msg, (Player.handleInvestPoi
        { player := { Player.initPlayer "bob" (0, 0) 0 with nits := 10 }
          controlledPois := [] } "poi1" 25).2 =
        [Player.PEff.sendError msg]) ∧
    ((Player.handleUpgradeRoute
        { player := { Player.initPlayer "bob" (0, 0) 0 with nits := 10 }
          controlledPois := [] } "r1").1 =
        { player := { Player.initPlayer "bob" (0, 0) 0 with nits := 10 }
          controlledPois := [] } ∧
      ∃ msg, (Player.handleUpgradeRoute
        { player := { Player.initPlayer "bob" (0, 0) 0 with nits := 10 }
          controlledPois := [] } "r1").2 =
        [Player.PEff.sendError msg])) :=
  ⟨by norm_num, by decide,
    C6_failed_commands_mutate_nothing
      { player := { Player.initPlayer "bob" (0, 0) 0 with nits := 10 }
        controlledPois := [] } "poi1" "r1" 25 (by norm_num) (by decide)⟩

/-- C3: A bid matches resting asks front-first while the best ask's price is
at or below the bid's price; each fill is `min(remaining, bestAsk.amount)`
at the resting (maker) price against a resting ask, fully consumed asks are
removed, the buyer is credited per fill by exactly the fill amount (and the
player entity's `update-nits` adds such a credit to the balance),
`(now, fillPrice)` is appended to the price history and `lastPrice` ends at
the last fill's price. Scenario: ask `(5, 10)` resting, bid `(6, 4)` in:
one fill of 4 at price 5, the ask shrinks to 6, the buyer is credited 4,
`lastPrice = 5`. -/
theorem C3_bid_matching (s : Market.MarketState) (order : Market.MarketOrder)
    (now : Nat) (hside : order.side = Side.bid) :
    (∀ f ∈ (Market.placeOrder s order now).2.1, f.price ≤ order.price ∧
      ∃ a ∈ s.asks, a.id = f.orderId ∧ a.price = f.price ∧
        a.player = f.counterparty ∧ f.amount ≤ a.amount) ∧
    ((Market.placeOrder s order now).2.2.filter Market.isTransfer =
      (Market.placeOrder s order now).2.1.map fun f =>
        Market.MEvent.transferNits order.player f.amount) ∧
    ((Market.placeOrder s order now).1.priceHistory =
      Market.trimHistory (s.priceHistory ++
        (Market.placeOrder s order now).2.1.map fun f => (now, f.price))) ∧
    ((Market.placeOrder s order now).2.1 = [] →
      (Market.placeOrder s order now).1.lastPrice = s.lastPrice) ∧
    (∀ f, (Market.placeOrder s order now).2.1.getLast? = some f →
      (Market.placeOrder s order now).1.lastPrice = f.price) ∧
    (∀ a rest, s.asks = a :: rest → 0 < order.amount →
      a.price ≤ order.price →
      ∃ tl, (Market.placeOrder s order now).2.1 =
        Market.Fill.mk a.id (min order.amount a.amount) a.price a.player ::
          tl) ∧
    (∀ (w : Player.PlayerWorld) (d : ℚ), 0 ≤ w.player.nits → 0 ≤ d →
      ((Player.handleUpdateNits w d).1).player.nits = w.player.nits + d) ∧
    Market.placeOrder c3Book c3Bid 1 =
      ({ bids := [], asks := [{ c3Ask with amount := 6 }]
         priceHistory := [(1, 5)], lastPrice := 5 },
        [⟨"a1", 4, 5, "seller"⟩],
        [.transferNits "buyer" 4, .addHeat "seller" 2,
          .addHeat "buyer" 2]) := by
  simp only [Market.placeOrder, hside]
  refine ⟨?_, ?_, trivial, ?_, ?_, ?_, ?_, by decide⟩
  · exact Market.matchAsks_fills _ _ _
  · exact Market.bidEvents_transfers _ _
  · intro hnil
    simp [Market.lastPriceAfter, hnil]
  · intro f hf
    simp [Market.lastPriceAfter, hf]
  · intro a rest hasks hamt hpr
    rw [hasks]
    exact Market.matchAsks_head _ _ _ _ hamt hpr
  · intro w d hw hd
    simp [Player.handleUpdateNits, not_lt.mpr (add_nonneg hw hd)]

/-- Witness for C3: the §8 matching scenario run concretely. -/
theorem C3_bid_matching_witness :
    c3Bid.side = Side.bid ∧
      Market.placeOrder c3Book c3Bid 1 =
        ({ bids := [], asks := [{ c3Ask with amount := 6 }]
           priceHistory := [(1, 5)], lastPrice := 5 },
          [⟨"a1", 4, 5, "seller"⟩],
          [.transferNits "buyer" 4, .addHeat "seller" 2,
            .addHeat "buyer" 2]) :=
  ⟨rfl, (C3_bid_matching c3Book c3Bid 1 rfl).2.2.2.2.2.2.2⟩

/-- C4: Between any two market operations the bids are sorted non-increasing
and the asks non-decreasing by price, every resting order has a strictly
positive amount, and both `placeOrder` and `cancelOrder` preserve this;
moreover every order resting after a `placeOrder` traces back to a previous
book order or the incoming order with its amount only ever decremented. -/
theorem C4_book_invariant (s : Market.MarketState)
    (order : Market.MarketOrder) (now : Nat) (orderId player : String)
    (hs : Market.BookInv s) :
    Market.BookInv (Market.placeOrder s order now).1 ∧
    (∀ s' evs, Market.cancelOrder s orderId player = some (s', evs) →
      Market.BookInv s') ∧
    (∀ o ∈ (Market.placeOrder s order now).1.asks,
      ∃ a ∈ s.asks ++ [order], o.id = a.id ∧ o.amount ≤ a.amount) ∧
    (∀ o ∈ (Market.placeOrder s order now).1.bids,
      ∃ a ∈ s.bids ++ [order], o.id = a.id ∧ o.amount ≤ a.amount) := by
  obtain ⟨hb, ha, hbp, hap⟩ := hs
  have hcancel : ∀ s' evs,
      Market.cancelOrder s orderId player = some (s', evs) →
      Market.BookInv s' := by
    intro s' evs hc
    unfold Market.cancelOrder at hc
    cases hb1 : eraseFirstMatch
        (fun o => o.id = orderId ∧ o.player = player) s.bids with
    | some v =>
      obtain ⟨m, bids'⟩ := v
      rw [hb1] at hc
      simp only [Option.some.injEq, Prod.mk.injEq] at hc
      obtain ⟨hc1, -⟩ := hc
      subst hc1
      obtain ⟨-, -, hsub, -, -⟩ := Market.eraseFirstMatch_eq_some _ _ _ _ hb1
      exact ⟨List.Pairwise.sublist hsub hb, ha,
        fun o ho => hbp o (hsub.subset ho), hap⟩
    | none =>
      rw [hb1] at hc
      cases ha1 : eraseFirstMatch
          (fun o => o.id = orderId ∧ o.player = player) s.asks with
      | some v =>
        obtain ⟨m, asks'⟩ := v
        rw [ha1] at hc
        simp only [Option.some.injEq, Prod.mk.injEq] at hc
        obtain ⟨hc1, -⟩ := hc
        subst hc1
        obtain ⟨-, -, hsub, -, -⟩ :=
          Market.eraseFirstMatch_eq_some _ _ _ _ ha1
        exact ⟨hb, List.Pairwise.sublist hsub ha, hbp,
          fun o ho => hap o (hsub.subset ho)⟩
      | none =>
        rw [ha1] at hc
        cases hc
  cases hside : order.side with
  | bid =>
    simp only [Market.placeOrder, hside]
    refine ⟨⟨?_, ?_, ?_, ?_⟩, hcancel, ?_, ?_⟩
    · split_ifs with hrem
      · exact Market.sortBids_pairwise _
      · exact hb
    · exact Market.matchAsks_asks_pairwise _ _ _ ha
    · split_ifs with hrem
      · intro o ho
        rw [Market.sortBids_mem] at ho
        rcases List.mem_append.mp ho with hmem | hmem
        · exact hbp o hmem
        · simp only [List.mem_singleton] at hmem
          subst hmem
          exact hrem
      · exact hbp
    · exact Market.matchAsks_asks_pos _ _ _ hap
    · intro o ho
      obtain ⟨a, hmem, h1, -, h3⟩ := Market.matchAsks_asks_trace _ _ _ o ho
      exact ⟨a, List.mem_append_left _ hmem, h1, h3⟩
    · split_ifs with hrem
      · intro o ho
        rw [Market.sortBids_mem] at ho
        rcases List.mem_append.mp ho with hmem | hmem
        · exact ⟨o, List.mem_append_left _ hmem, rfl, le_refl _⟩
        · simp only [List.mem_singleton] at hmem
          subst hmem
          exact ⟨order, List.mem_append_right _ (List.mem_singleton.mpr rfl),
            rfl, Market.matchAsks_remaining_le _ _ _ hap⟩
      · intro o ho
        exact ⟨o, List.mem_append_left _ ho, rfl, le_refl _⟩
  | ask =>
    simp only [Market.placeOrder, hside]
    refine ⟨⟨?_, ?_, ?_, ?_⟩, hcancel, ?_, ?_⟩
    · exact Market.matchBids_bids_pairwise _ _ _ hb
    · split_ifs with hrem
      · exact Market.sortAsks_pairwise _
      · exact ha
    · exact Market.matchBids_bids_pos _ _ _ hbp
    · split_ifs with hrem
      · intro o ho
        rw [Market.sortAsks_mem] at ho
        rcases List.mem_append.mp ho with hmem | hmem
        · exact hap o hmem
        · simp only [List.mem_singleton] at hmem
          subst hmem
          exact hrem
      · exact hap
    · split_ifs with hrem
      · intro o ho
        rw [Market.sortAsks_mem] at ho
        rcases List.mem_append.mp ho with hmem | hmem
        · exact ⟨o, List.mem_append_left _ hmem, rfl, le_refl _⟩
        · simp only [List.mem_singleton] at hmem
          subst hmem
          exact ⟨order, List.mem_append_right _ (List.mem_singleton.mpr rfl),
            rfl, Market.matchBids_remaining_le _ _ _ hbp⟩
      · intro o ho
        exact ⟨o, List.mem_append_left _ ho, rfl, le_refl _⟩
    · intro o ho
      obtain ⟨a, hmem, h1, -, h3⟩ := Market.matchBids_bids_trace _ _ _ o ho
      exact ⟨a, List.mem_append_left _ hmem, h1, h3⟩

/-- Witness for C4: the two-sided book `c4Book` satisfies the invariant; a
crossing bid and a cancellation of ben's resting bid keep it. -/
theorem C4_book_invariant_witness :
    Market.BookInv c4Book ∧
      (Market.BookInv (Market.placeOrder c4Book c4Order 2).1 ∧
      (∀ s' evs, Market.cancelOrder c4Book "b2" "ben" = some (s', evs) →
        Market.BookInv s') ∧
      (∀ o ∈ (Market.placeOrder c4Book c4Order 2).1.asks,
        ∃ a ∈ c4Book.asks ++ [c4Order], o.id = a.id ∧ o.amount ≤ a.amount) ∧
      (∀ o ∈ (Market.placeOrder c4Book c4Order 2).1.bids,
        ∃ a ∈ c4Book.bids ++ [c4Order], o.id = a.id ∧ o.amount ≤ a.amount)) :=
  ⟨by decide, C4_book_invariant c4Book c4Order 2 "b2" "ben" (by decide)⟩

/-- C10: `cancelOrder` removes an order only when both the id and the owner
match the caller, removes at most one order per call (bids searched before
asks), returns not-found with both books untouched when nothing matches,
and can never remove an order belonging to a different player. -/
theorem C10_cancel_only_own_order (s : Market.MarketState)
    (orderId player : String) :
    (Market.cancelOrder s orderId player = none ↔
      (∀ o ∈ s.bids, ¬(o.id = orderId ∧ o.player = player)) ∧
        ∀ o ∈ s.asks, ¬(o.id = orderId ∧ o.player = player)) ∧
    (∀ s' evs, Market.cancelOrder s orderId player = some (s', evs) →
      s'.bids.Sublist s.bids ∧ s'.asks.Sublist s.asks ∧
      s'.bids.length + s'.asks.length + 1 = s.bids.length + s.asks.length ∧
      (∀ o ∈ s.bids, ¬(o.id = orderId ∧ o.player = player) → o ∈ s'.bids) ∧
      ∀ o ∈ s.asks, ¬(o.id = orderId ∧ o.player = player) → o ∈ s'.asks) ∧
    (∀ s' evs, Market.cancelOrder s orderId player = some (s', evs) →
      (∃ o ∈ s.bids, o.id = orderId ∧ o.player = player) →
      s'.asks = s.asks) := by
  cases hb1 : eraseFirstMatch
      (fun o => o.id = orderId ∧ o.player = player) s.bids with
  | some v =>
    obtain ⟨m, bids'⟩ := v
    obtain ⟨hpm, hml, hsub, hlen, hmem⟩ :=
      Market.eraseFirstMatch_eq_some _ _ _ _ hb1
    have hred : Market.cancelOrder s orderId player =
        some ({ s with bids := bids' }, []) := by
      unfold Market.cancelOrder
      rw [hb1]
    refine ⟨?_, ?_, ?_⟩
    · rw [hred]
      constructor
      · intro hcon
        exact absurd hcon (Option.some_ne_none _)
      · rintro ⟨hbids, -⟩
        exact absurd hpm (hbids m hml)
    · intro s' evs hc
      rw [hred] at hc
      simp only [Option.some.injEq, Prod.mk.injEq] at hc
      obtain ⟨rfl, -⟩ := hc
      refine ⟨hsub, List.Sublist.refl _, ?_, hmem, fun o ho _ => ho⟩
      show bids'.length + s.asks.length + 1 = s.bids.length + s.asks.length
      omega
    · intro s' evs hc hex
      rw [hred] at hc
      simp only [Option.some.injEq, Prod.mk.injEq] at hc
      obtain ⟨rfl, -⟩ := hc
      rfl
  | none =>
    have hnob := (Market.eraseFirstMatch_eq_none _ _).mp hb1
    cases ha1 : eraseFirstMatch
        (fun o => o.id = orderId ∧ o.player = player) s.asks with
    | some v =>
      obtain ⟨m, asks'⟩ := v
      obtain ⟨hpm, hml, hsub, hlen, hmem⟩ :=
        Market.eraseFirstMatch_eq_some _ _ _ _ ha1
      have hred : Market.cancelOrder s orderId player =
          some ({ s with asks := asks' },
            [Market.MEvent.transferNits player m.amount]) := by
        unfold Market.cancelOrder
        rw [hb1, ha1]
      refine ⟨?_, ?_, ?_⟩
      · rw [hred]
        constructor
        · intro hcon
          exact absurd hcon (Option.some_ne_none _)
        · rintro ⟨-, hasks⟩
          exact absurd hpm (hasks m hml)
      · intro s' evs hc
        rw [hred] at hc
        simp only [Option.some.injEq, Prod.mk.injEq] at hc
        obtain ⟨rfl, -⟩ := hc
        refine ⟨List.Sublist.refl _, hsub, ?_, fun o ho _ => ho, hmem⟩
        show s.bids.length + asks'.length + 1 = s.bids.length + s.asks.length
        omega
      · rintro s' evs hc ⟨o, ho, hpo⟩
        exact absurd hpo (hnob o ho)
    | none =>
      have hnoa := (Market.eraseFirstMatch_eq_none _ _).mp ha1
      have hred : Market.cancelOrder s orderId player = none := by
        unfold Market.cancelOrder
        rw [hb1, ha1]
      refine ⟨?_, ?_, ?_⟩
      · rw [hred]
        exact ⟨fun _ => ⟨hnob, hnoa⟩, fun _ => rfl⟩
      · intro s' evs hc
        rw [hred] at hc
        cases hc
      · intro s' evs hc
        rw [hred] at hc
        cases hc

/-- Witness for C10, applied to a concrete book: in particular cat (who
owns only the ask `a1`) cannot cancel amy's bid `b1`. -/
theorem C10_cancel_only_own_order_witness :
    (Market.cancelOrder c10Book "b1" "cat" = none ↔
      (∀ o ∈ c10Book.bids, ¬(o.id = "b1" ∧ o.player = "cat")) ∧
        ∀ o ∈ c10Book.asks, ¬(o.id = "b1" ∧ o.player = "cat")) ∧
    (∀ s' evs, Market.cancelOrder c10Book "b1" "cat" = some (s', evs) →
      s'.bids.Sublist c10Book.bids ∧ s'.asks.Sublist c10Book.asks ∧
      s'.bids.length + s'.asks.length + 1 =
        c10Book.bids.length + c10Book.asks.length ∧
      (∀ o ∈ c10Book.bids, ¬(o.id = "b1" ∧ o.player = "cat") →
        o ∈ s'.bids) ∧
      ∀ o ∈ c10Book.asks, ¬(o.id = "b1" ∧ o.player = "cat") →
        o ∈ s'.asks) ∧
    (∀ s' evs, Market.cancelOrder c10Book "b1" "cat" = some (s', evs) →
      (∃ o ∈ c10Book.bids, o.id = "b1" ∧ o.player = "cat") →
      s'.asks = c10Book.asks) :=
  C10_cancel_only_own_order c10Book "b1" "cat"

/-- C7: After Node A requests a link to Node B and B accepts with the
returned link id, the created Link record has status `active` and capacity
10, carries A as requester and B as acceptor at their published
coordinates, and the link id ends up in both A's (via the synchronous
route-accepted notification) and B's (appended during accept) route
lists. -/
theorem C7_link_handshake (a b : Player.PlayerState)
    (pend : List (String × String)) (routeId : String) (now : Nat)
    (hpend : pend.lookup routeId = some a.username) :
    ∃ a' b' route,
      Player.acceptRouteProtocol a b pend routeId now =
        some (a', b', route) ∧
      route.status = Route.RouteStatus.active ∧ route.capacity = 10 ∧
      route.id = routeId ∧ route.playerA = a.username ∧
      route.playerB = b.username ∧ route.coordsA = a.coordinates ∧
      route.coordsB = b.coordinates ∧
      routeId ∈ a'.routes ∧ routeId ∈ b'.routes := by
  have hred : Player.acceptRouteProtocol a b pend routeId now =
      some ({ a with routes := a.routes ++ [routeId] },
        { b with routes := b.routes ++ [routeId] },
        { id := routeId, playerA := a.username, playerB := b.username
          coordsA := a.coordinates, coordsB := b.coordinates
          capacity := 10, status := .active, createdAt := now }) := by
    unfold Player.acceptRouteProtocol Player.handleAcceptRoute
      Player.handleRouteAcceptedNotification
    rw [hpend]
    rfl
  refine ⟨_, _, _, hred, rfl, rfl, rfl, rfl, rfl, rfl, rfl, ?_, ?_⟩
  · simp
  · simp

/-- Witness for C7: alice's pending request at bob is accepted. -/
theorem C7_link_handshake_witness :
    ([("alice-bob-9", "alice")] : List (String × String)).lookup
        "alice-bob-9" =
      some (Player.initPlayer "alice" (1, 2) 0).username ∧
    ∃ a' b' route,
      Player.acceptRouteProtocol (Player.initPlayer "alice" (1, 2) 0)
          (Player.initPlayer "bob" (3, 4) 0) [("alice-bob-9", "alice")]
          "alice-bob-9" 9 = some (a', b', route) ∧
      route.status = Route.RouteStatus.active ∧ route.capacity = 10 ∧
      route.id = "alice-bob-9" ∧
      route.playerA = (Player.initPlayer "alice" (1, 2) 0).username ∧
      route.playerB = (Player.initPlayer "bob" (3, 4) 0).username ∧
      route.coordsA = (Player.initPlayer "alice" (1, 2) 0).coordinates ∧
      route.coordsB = (Player.initPlayer "bob" (3, 4) 0).coordinates ∧
      "alice-bob-9" ∈ a'.routes ∧ "alice-bob-9" ∈ b'.routes :=
  ⟨by decide,
    C7_link_handshake (Player.initPlayer "alice" (1, 2) 0)
      (Player.initPlayer "bob" (3, 4) 0) [("alice-bob-9", "alice")]
      "alice-bob-9" 9 (by decide)⟩

/-- C8: A Link's capacity never decreases: under the operations the system
actually issues (status updates, and capacity upgrades always carrying
amount 5 from `handleUpgradeRoute`) the capacity after any sequence equals
the starting capacity plus 5 per upgrade, so it never drops below the
creation value of 10 that `handleAcceptRoute` writes, and each upgrade
strictly increases it. -/
theorem C8_capacity_monotone (r : Route.RouteState)
    (ops : List Route.RouteOp) (hwf : ∀ op ∈ ops, Route.WfRouteOp op) :
    (Route.runRoute r ops).capacity =
      r.capacity + 5 * (Route.countUpgrades ops : ℚ) ∧
    r.capacity ≤ (Route.runRoute r ops).capacity ∧
    (∀ amount : ℚ, 0 < amount →
      r.capacity <
        (Route.routeStep r (Route.RouteOp.upgradeCapacity amount)).capacity) ∧
    (∀ b pend fromPlayer routeId now b' pend' route,
      Player.handleAcceptRoute b pend fromPlayer routeId now =
        some (b', pend', route) → route.capacity = 10) ∧
    (10 ≤ r.capacity → 10 ≤ (Route.runRoute r ops).capacity) := by
  have hmain : ∀ (l : List Route.RouteOp) (r0 : Route.RouteState),
      (∀ op ∈ l, Route.WfRouteOp op) →
      (Route.runRoute r0 l).capacity =
        r0.capacity + 5 * (Route.countUpgrades l : ℚ) := by
    intro l
    induction l with
    | nil =>
      intro r0 hwf0
      simp [Route.runRoute, Route.countUpgrades]
    | cons op rest ih =>
      intro r0 hwf0
      have hwfop : Route.WfRouteOp op := hwf0 op (List.mem_cons_self _ _)
      have hrest : ∀ o ∈ rest, Route.WfRouteOp o :=
        fun o ho => hwf0 o (List.mem_cons_of_mem _ ho)
      have hstep : (Route.runRoute r0 (op :: rest)).capacity =
          (Route.routeStep r0 op).capacity +
            5 * (Route.countUpgrades rest : ℚ) := ih _ hrest
      cases op with
      | updateStatus st =>
        rw [hstep]
        show r0.capacity + 5 * (Route.countUpgrades rest : ℚ) = _
        have hcnt : Route.countUpgrades (Route.RouteOp.updateStatus st :: rest) =
            Route.countUpgrades rest := by
          simp [Route.countUpgrades, List.countP_cons]
        rw [hcnt]
      | upgradeCapacity amount =>
        have hamt : amount = Player.capacityIncrease := hwfop
        have hcnt : Route.countUpgrades
            (Route.RouteOp.upgradeCapacity amount :: rest) =
            Route.countUpgrades rest + 1 := by
          simp [Route.countUpgrades, List.countP_cons]
        rw [hstep, hcnt]
        show r0.capacity + amount + 5 * (Route.countUpgrades rest : ℚ) = _
        rw [hamt]
        unfold Player.capacityIncrease
        push_cast
        ring
  have h1 := hmain ops r hwf
  have hnn : (0 : ℚ) ≤ 5 * (Route.countUpgrades ops : ℚ) :=
    mul_nonneg (by norm_num) (Nat.cast_nonneg _)
  refine ⟨h1, ?_, ?_, ?_, ?_⟩
  · rw [h1]
    linarith
  · intro amount hamt
    show r.capacity < r.capacity + amount
    linarith
  · intro b pend fromPlayer routeId now b' pend' route h
    unfold Player.handleAcceptRoute at h
    cases hl : pend.lookup routeId with
    | none =>
      rw [hl] at h
      cases h
    | some fromName =>
      rw [hl] at h
      simp only [Option.some.injEq, Prod.mk.injEq] at h
      obtain ⟨-, -, hr⟩ := h
      rw [← hr]
  · intro h10
    rw [h1]
    linarith

/-- Witness for C8: two upgrades and a status change on a freshly created
route take the capacity from 10 to 20, never below 10. -/
theorem C8_capacity_monotone_witness :
    (∀ op ∈ ([.upgradeCapacity 5,
        .updateStatus Route.RouteStatus.inactive,
        .upgradeCapacity 5] : List Route.RouteOp), Route.WfRouteOp op) ∧
    ((Route.runRoute c8Route [.upgradeCapacity 5,
        .updateStatus Route.RouteStatus.inactive,
        .upgradeCapacity 5]).capacity =
      c8Route.capacity + 5 * ((Route.countUpgrades [.upgradeCapacity 5,
        .updateStatus Route.RouteStatus.inactive,
        .upgradeCapacity 5] : Nat) : ℚ) ∧
    c8Route.capacity ≤ (Route.runRoute c8Route [.upgradeCapacity 5,
        .updateStatus Route.RouteStatus.inactive,
        .upgradeCapacity 5]).capacity ∧
    (∀ amount : ℚ, 0 < amount →
      c8Route.capacity <
        (Route.routeStep c8Route
          (Route.RouteOp.upgradeCapacity amount)).capacity) ∧
    (∀ b pend fromPlayer routeId now b' pend' route,
      Player.handleAcceptRoute b pend fromPlayer routeId now =
        some (b', pend', route) → route.capacity = 10) ∧
    (10 ≤ c8Route.capacity → 10 ≤ (Route.runRoute c8Route
      [.upgradeCapacity 5, .updateStatus Route.RouteStatus.inactive,
        .upgradeCapacity 5]).capacity)) :=
  ⟨by decide, C8_capacity_monotone c8Route
    [.upgradeCapacity 5, .updateStatus Route.RouteStatus.inactive,
      .upgradeCapacity 5] (by decide)⟩

/-- C9: The read-only visibility query exposes the balance iff the heat is
strictly above 75, and for two player states agreeing on username,
coordinates and heat, both with heat ≤ 75, the responses are identical —
the balance does not leak at low heat. -/
theorem C9_visibility_noninterference (p p1 p2 : Player.PlayerState)
    (hu : p1.username = p2.username) (hc : p1.coordinates = p2.coordinates)
    (hh : p1.heat = p2.heat) (hlow : p1.heat ≤ 75) :
    ((Player.getVisibilityInfo p).nits = some p.nits ↔ 75 < p.heat) ∧
    ((Player.getVisibilityInfo p).nits = none ↔ ¬ 75 < p.heat) ∧
    Player.getVisibilityInfo p1 = Player.getVisibilityInfo p2 := by
  refine ⟨?_, ?_, ?_⟩
  · unfold Player.getVisibilityInfo
    by_cases h : 75 < p.heat <;> simp [h]
  · unfold Player.getVisibilityInfo
    by_cases h : 75 < p.heat <;> simp [h]
  · have h2 : ¬ 75 < p2.heat := by
      rw [← hh]
      omega
    unfold Player.getVisibilityInfo
    rw [hu, hc, hh]
    rw [if_neg h2, if_neg h2]

/-- Witness for C9: two players with the same name, position and heat 40
but different balances are indistinguishable through the query. -/
theorem C9_visibility_noninterference_witness :
    c9Poor.username = c9Rich.username ∧
    c9Poor.coordinates = c9Rich.coordinates ∧
    c9Poor.heat = c9Rich.heat ∧
    c9Poor.heat ≤ 75 ∧
    (((Player.getVisibilityInfo c9Poor).nits = some c9Poor.nits ↔
        75 < c9Poor.heat) ∧
    ((Player.getVisibilityInfo c9Poor).nits = none ↔
        ¬ 75 < c9Poor.heat) ∧
    Player.getVisibilityInfo c9Poor = Player.getVisibilityInfo c9Rich) :=
  ⟨rfl, rfl, rfl, by decide,
    C9_visibility_noninterference c9Poor c9Poor c9Rich rfl rfl rfl
      (by decide)⟩

/-- Witness for C5: the scenario point fires at `now = DECAY_INTERVAL`. -/
theorem C5_decay_sweep_witness :
    Intersection.DECAY_INTERVAL ≤
        Intersection.DECAY_INTERVAL - c5State.lastActivity ∧
      ((Intersection.alarm c5State Intersection.DECAY_INTERVAL).1.investments =
        Intersection.decayStakes c5State.investments ∧
      (Intersection.alarm c5State Intersection.DECAY_INTERVAL).1.totalInvested =
        Intersection.sumStakes (Intersection.decayStakes c5State.investments) ∧
      (Intersection.alarm c5State Intersection.DECAY_INTERVAL).1.controller =
        Intersection.computeController
          (Intersection.decayStakes c5State.investments) ∧
      (Intersection.alarm c5State Intersection.DECAY_INTERVAL).2 =
        Intersection.controlNotifications c5State.id c5State.controller
          (Intersection.computeController
            (Intersection.decayStakes c5State.investments))) ∧
    (∀ player amount n2,
      (Intersection.invest c5State player amount n2).2 =
        Intersection.controlNotifications c5State.id c5State.controller
          (Intersection.computeController
            (bumpEntry c5State.investments player amount))) ∧
    (∀ k, (Intersection.alarm c5State Intersection.DECAY_INTERVAL).1.controller =
        some k →
      Intersection.FirstArgmax
        (Intersection.alarm c5State Intersection.DECAY_INTERVAL).1.investments k) ∧
    (PropOrder c5State.investments →
      PropOrder
        (Intersection.alarm c5State Intersection.DECAY_INTERVAL).1.investments) ∧
    ((Intersection.decaySweep c5State).investments = [("alice", 90)] ∧
      (Intersection.decaySweep c5State).controller = some "alice") ∧
    ((Intersection.decaySweep^[28] c5State).investments = [] ∧
      (Intersection.decaySweep^[28] c5State).controller = none) :=
  ⟨by decide, C5_decay_sweep c5State Intersection.DECAY_INTERVAL (by decide)⟩

end Foam
